import Mathlib

/-!
Verification development for the kadiradb-core repository.

Source files modelled:
  * `src/index/index.go`      — the field-set index (trie + append log)
  * `src/unnamed/part_000`    — the generated wire codec (`protocol.pb.go` of the server package)
  * `src/unnamed/part_001`    — the database orchestrator (`kadiyadb.go` and the generated
                                protobuf declarations of package `kadiyadb`)

Conventions of the embedding:
  * Go strings are byte sequences; they are modelled as `List Nat` (each element a byte).
  * Go `uint64` values are modelled as `Nat` together with explicit `% 2 ^ 64` where the
    source relies on wrap-around, and `< 2 ^ 64` hypotheses in theorems.
  * Go `int64` values are modelled as `Int`; Go's `%` and `/` truncate towards zero and are
    modelled with `Int.tmod` and `Int.tdiv`.
  * Fallible Go functions return `Except Err` / `Option`; a Go runtime panic is modelled as
    `Option.none`.
  * Loops whose textual termination argument is "the cursor advances every iteration" are
    modelled with an explicit fuel argument that is instantiated generously enough to be
    exact for every input considered by the theorems.
-/

namespace KadiraDB

/-- Error values of the source (`errors.New` values in `index.go` and the database file).
`write` is `ErrWrite`, `load` is `ErrLoad`, `ronly` is `ErrROnly`, `noWild` is `ErrNoWild`,
`noItem` is `ErrNoItem`, `itemExists` is `ErrExists` (index), `future` is `ErrFuture`,
`range` is `ErrRange`, `durRes` is `ErrDurRes`, `shortData` models the `io` errors surfaced
while reading (`io.ErrUnexpectedEOF` and decode failures). -/
inductive Err where
  | write
  | load
  | ronly
  | noWild
  | noItem
  | itemExists
  | future
  | range
  | durRes
  | shortData
deriving DecidableEq, Repr

/-! ## Varint codec

`encodeVarintProtocol` in `part_000` (and the identical inline loops in the generated
`MarshalTo` bodies) write base-128 little-endian varints:

    for v >= 1<<7 { data[offset] = uint8(v&0x7f | 0x80); v >>= 7; offset++ }
    data[offset] = uint8(v)

The decode loops accumulate `acc |= (uint64(b) & 0x7F) << shift` in a `uint64` and stop at
the first byte below `0x80`. -/

/-- Byte list produced by `encodeVarintProtocol` for the value `v`. -/
def encodeVarint (v : Nat) : List Nat :=
  if _h : v < 128 then [v]
  else (v % 128 + 128) :: encodeVarint (v / 128)
termination_by v
decreasing_by
  exact Nat.div_lt_self (by omega) (by omega)

/-- Accumulating varint decode loop, as in the generated `Unmarshal` bodies: the shifted
byte is or-ed into a `uint64` accumulator (wrap-around modelled by `% 2 ^ 64`; a Go shift
by 64 or more yields 0, which the `% 2 ^ 64` also captures), and a byte below `0x80`
terminates. Running out of bytes is `io.ErrUnexpectedEOF` (`none`). -/
def decodeVarintLoop : List Nat → Nat → Nat → Option (Nat × List Nat)
  | [], _, _ => none
  | b :: rest, shift, acc =>
    let acc2 := acc ||| ((b % 128) <<< shift % 2 ^ 64)
    if b < 128 then some (acc2, rest)
    else decodeVarintLoop rest (shift + 7) acc2

/-- Varint decode starting with a zero accumulator. -/
def decodeVarint (data : List Nat) : Option (Nat × List Nat) :=
  decodeVarintLoop data 0 0

theorem encodeVarint_length_pos (v : Nat) : 0 < (encodeVarint v).length := by
  unfold encodeVarint
  split <;> simp

/-- Disjoint bit ranges: or-ing a value below `2 ^ i` with a multiple of `2 ^ i`
is addition. -/
theorem lor_mul_pow_eq_add (a b i : Nat) (h : b < 2 ^ i) :
    b ||| a * 2 ^ i = b + a * 2 ^ i := by
  rw [Nat.lor_comm, Nat.mul_comm a (2 ^ i), ← Nat.mul_add_lt_is_or h a]
  omega

theorem decodeVarintLoop_encode (v : Nat) :
    ∀ (shift acc : Nat) (rest : List Nat), acc < 2 ^ shift → v * 2 ^ shift < 2 ^ 64 →
    decodeVarintLoop (encodeVarint v ++ rest) shift acc =
      some (acc + v * 2 ^ shift, rest) := by
  induction v using Nat.strong_induction_on with
  | _ v ih =>
    intro shift acc rest hacc hlt
    by_cases hv : v < 128
    · rw [encodeVarint, dif_pos hv]
      have hsm : (v % 128) <<< shift % 2 ^ 64 = v * 2 ^ shift := by
        have h1 : v % 128 = v := Nat.mod_eq_of_lt hv
        rw [Nat.shiftLeft_eq, h1]
        exact Nat.mod_eq_of_lt hlt
      simp only [List.cons_append, List.append_eq, List.nil_append, decodeVarintLoop, hsm,
        if_pos hv]
      rw [lor_mul_pow_eq_add _ _ _ hacc]
    · rw [encodeVarint, dif_neg hv]
      have hb : ¬ (v % 128 + 128 < 128) := by omega
      have hshift_lt : (v % 128) * 2 ^ shift < 2 ^ (shift + 7) := by
        have h7 : v % 128 < 2 ^ 7 := by omega
        calc (v % 128) * 2 ^ shift < 2 ^ 7 * 2 ^ shift :=
              mul_lt_mul_of_pos_right h7 (Nat.two_pow_pos shift)
          _ = 2 ^ (shift + 7) := by rw [Nat.add_comm shift 7, Nat.pow_add]
      have hmlt : (v % 128) * 2 ^ shift < 2 ^ 64 := by
        have h1 : v % 128 ≤ v := Nat.mod_le v 128
        calc (v % 128) * 2 ^ shift ≤ v * 2 ^ shift := Nat.mul_le_mul_right _ h1
          _ < 2 ^ 64 := hlt
      have hsm : ((v % 128 + 128) % 128) <<< shift % 2 ^ 64 = (v % 128) * 2 ^ shift := by
        have h128 : (v % 128 + 128) % 128 = v % 128 := by omega
        rw [h128, Nat.shiftLeft_eq]
        exact Nat.mod_eq_of_lt hmlt
      simp only [List.cons_append, List.append_eq, List.nil_append, decodeVarintLoop, hsm,
        if_neg hb]
      have hacc2 : acc ||| (v % 128) * 2 ^ shift < 2 ^ (shift + 7) := by
        apply Nat.or_lt_two_pow
        · calc acc < 2 ^ shift := hacc
            _ ≤ 2 ^ (shift + 7) := Nat.pow_le_pow_right (by omega) (by omega)
        · exact hshift_lt
      have hdivlt : v / 128 * 2 ^ (shift + 7) < 2 ^ 64 := by
        have hle : v / 128 * 2 ^ (shift + 7) ≤ v * 2 ^ shift := by
          rw [Nat.add_comm shift 7, Nat.pow_add]
          calc v / 128 * (2 ^ 7 * 2 ^ shift) = (v / 128 * 128) * 2 ^ shift := by ring
            _ ≤ v * 2 ^ shift := Nat.mul_le_mul_right _ (Nat.div_mul_le_self v 128)
        omega
      rw [ih (v / 128) (Nat.div_lt_self (by omega) (by omega)) (shift + 7) _ rest hacc2 hdivlt]
      congr 2
      rw [lor_mul_pow_eq_add _ _ _ hacc]
      have hsplit : (v % 128) * 2 ^ shift + v / 128 * 2 ^ (shift + 7) = v * 2 ^ shift := by
        rw [Nat.add_comm shift 7, Nat.pow_add]
        have := Nat.div_add_mod v 128
        calc (v % 128) * 2 ^ shift + v / 128 * (2 ^ 7 * 2 ^ shift)
            = (128 * (v / 128) + v % 128) * 2 ^ shift := by ring
          _ = v * 2 ^ shift := by rw [this]
      omega

/-- Varint round-trip: decoding the encoding of a `uint64` value recovers it and consumes
exactly the encoded bytes. -/
theorem decodeVarint_encode (v : Nat) (rest : List Nat) (h : v < 2 ^ 64) :
    decodeVarint (encodeVarint v ++ rest) = some (v, rest) := by
  unfold decodeVarint
  rw [decodeVarintLoop_encode v 0 0 rest (by omega) (by omega)]
  norm_num

/-! ## Fixed64 codec

`encodeFixed64Protocol` stores a `uint64` as eight little-endian bytes
(`data[offset+k] = uint8(v >> 8k)`); the decode arm of `ReqTrack.Unmarshal` (field 2)
rebuilds the value by or-ing the shifted bytes. Model inputs are byte lists, so each
element is below 256 wherever the data originates from the encoder. -/

/-- Bytes written by `encodeFixed64Protocol`. -/
def encodeFixed64 (v : Nat) : List Nat :=
  [v % 256, (v >>> 8) % 256, (v >>> 16) % 256, (v >>> 24) % 256,
   (v >>> 32) % 256, (v >>> 40) % 256, (v >>> 48) % 256, (v >>> 56) % 256]

/-- Accumulation performed by the 64-bit fixed decode arm (`v |= uint64(b) << 8k`). -/
def fixed64Combine (b0 b1 b2 b3 b4 b5 b6 b7 : Nat) : Nat :=
  b0 ||| b1 <<< 8 ||| b2 <<< 16 ||| b3 <<< 24 ||| b4 <<< 32 ||| b5 <<< 40 |||
    b6 <<< 48 ||| b7 <<< 56

theorem fixed64Combine_encode (v : Nat) (h : v < 2 ^ 64) :
    fixed64Combine (v % 256) ((v >>> 8) % 256) ((v >>> 16) % 256) ((v >>> 24) % 256)
      ((v >>> 32) % 256) ((v >>> 40) % 256) ((v >>> 48) % 256) ((v >>> 56) % 256) = v := by
  unfold fixed64Combine
  simp only [Nat.shiftLeft_eq, Nat.shiftRight_eq_div_pow]
  rw [lor_mul_pow_eq_add _ _ 8 (by omega)]
  rw [lor_mul_pow_eq_add _ _ 16 (by omega)]
  rw [lor_mul_pow_eq_add _ _ 24 (by omega)]
  rw [lor_mul_pow_eq_add _ _ 32 (by omega)]
  rw [lor_mul_pow_eq_add _ _ 40 (by omega)]
  rw [lor_mul_pow_eq_add _ _ 48 (by omega)]
  rw [lor_mul_pow_eq_add _ _ 56 (by omega)]
  omega

/-! ## The `ReqTrack` wire message (`part_000`)

`ReqTrack` carries `Time uint64` (field 1, varint), `Total float64` (field 2, 64-bit
fixed), `Count uint64` (field 3, varint) and `Fields []string` (field 4,
length-delimited, repeated). The float is modelled by its IEEE-754 bit pattern
(`math.Float64bits` / `math.Float64frombits` are inverse bijections on bit patterns, and
the fixed64 arm moves exactly those bits). -/

structure ReqTrack where
  time : Nat
  totalBits : Nat
  count : Nat
  fields : List (List Nat)
deriving DecidableEq, Repr

/-- Whether a float64 with the given bit pattern compares equal to `0` in Go
(`m.Total != 0` in `MarshalTo`): exactly the bit patterns of `+0.0` and `-0.0`
(`2 ^ 63`). Every NaN compares unequal to zero, hence is encoded. -/
def float64IsZero (bits : Nat) : Bool := bits == 0 || bits == 2 ^ 63

/-- Bytes of the repeated `Fields` chunks of `ReqTrack.MarshalTo`: tag `0x22`, then the
byte length as a varint (the inline loop in the source is the same base-128 encoding as
`encodeVarint`), then the raw string bytes. -/
def reqTrackFieldsBytes (fs : List (List Nat)) : List Nat :=
  (fs.map fun s => 34 :: (encodeVarint s.length ++ s)).flatten

/-- Byte output of `ReqTrack.MarshalTo` (taking the first `n` bytes as `Marshal` does).
Tag bytes: `0x8` time, `0x11` total, `0x18` count, `0x22` each field string. -/
def reqTrackMarshal (m : ReqTrack) : List Nat :=
  (if m.time ≠ 0 then 8 :: encodeVarint m.time else []) ++
  (if float64IsZero m.totalBits then [] else 17 :: encodeFixed64 m.totalBits) ++
  (if m.count ≠ 0 then 24 :: encodeVarint m.count else []) ++
  reqTrackFieldsBytes m.fields

/-- Byte count of the inner varint skip of `skipProtocol` (wire type 0): one byte per
iteration until a byte below `0x80`. -/
def skipVarintLen : List Nat → Nat → Option Nat
  | [], _ => none
  | b :: rest, n => if b < 128 then some (n + 1) else skipVarintLen rest (n + 1)

mutual

/-- `skipProtocol` of the generated code: returns the number of bytes (tag included)
occupied by the next field, for unknown-tag skipping. The group case (wire type 3)
recurses; the explicit fuel argument bounds that recursion and is instantiated with more
fuel than bytes, which is always sufficient since every recursive step consumes bytes. -/
def skipProtocol : Nat → List Nat → Option Nat
  | 0, _ => none
  | fuel + 1, data =>
    match decodeVarint data with
    | none => none
    | some (wire, rest) =>
      let consumed := data.length - rest.length
      let wireType := wire % 8
      if wireType = 0 then (skipVarintLen rest 0).map (consumed + ·)
      else if wireType = 1 then some (consumed + 8)
      else if wireType = 2 then
        match decodeVarint rest with
        | none => none
        | some (len, rest2) => some (data.length - rest2.length + len)
      else if wireType = 3 then skipGroupLoop fuel rest consumed
      else if wireType = 4 then some consumed
      else if wireType = 5 then some (consumed + 4)
      else none

/-- Inner loop of the group case of `skipProtocol`: skip fields until an end-group tag
(wire type 4). -/
def skipGroupLoop : Nat → List Nat → Nat → Option Nat
  | 0, _, _ => none
  | fuel + 1, d, acc =>
    match decodeVarint d with
    | none => none
    | some (innerWire, rest) =>
      let tagLen := d.length - rest.length
      if innerWire % 8 = 4 then some (acc + tagLen)
      else
        match skipProtocol fuel d with
        | none => none
        | some next => skipGroupLoop fuel (d.drop next) (acc + next)

end

/-- Decode loop of `ReqTrack.Unmarshal`. The fuel argument makes the
`for iNdEx < l` loop structurally recursive; every iteration of the source consumes at
least one byte, so fuel `data.length + 1` is exact. -/
def reqTrackUnmarshalLoop : Nat → ReqTrack → List Nat → Option ReqTrack
  | _, m, [] => some m
  | 0, _, _ :: _ => none
  | fuel + 1, m, data =>
    match decodeVarint data with
    | none => none
    | some (wire, rest) =>
      let fieldNum := wire >>> 3 % 2 ^ 32
      let wireType := wire % 8
      if fieldNum = 1 then
        if wireType ≠ 0 then none else
        match decodeVarint rest with
        | none => none
        | some (v, rest2) => reqTrackUnmarshalLoop fuel { m with time := v } rest2
      else if fieldNum = 2 then
        if wireType ≠ 1 then none else
        match rest with
        | b0 :: b1 :: b2 :: b3 :: b4 :: b5 :: b6 :: b7 :: rest2 =>
          reqTrackUnmarshalLoop fuel
            { m with totalBits := fixed64Combine b0 b1 b2 b3 b4 b5 b6 b7 } rest2
        | _ => none
      else if fieldNum = 3 then
        if wireType ≠ 0 then none else
        match decodeVarint rest with
        | none => none
        | some (v, rest2) => reqTrackUnmarshalLoop fuel { m with count := v } rest2
      else if fieldNum = 4 then
        if wireType ≠ 2 then none else
        match decodeVarint rest with
        | none => none
        | some (slen, rest2) =>
          if slen ≤ rest2.length then
            reqTrackUnmarshalLoop fuel
              { m with fields := m.fields ++ [rest2.take slen] } (rest2.drop slen)
          else none
      else
        match skipProtocol (data.length + 1) data with
        | none => none
        | some skippy =>
          if skippy ≤ data.length then reqTrackUnmarshalLoop fuel m (data.drop skippy)
          else none

/-- `ReqTrack.Unmarshal` starting from a fresh zero message. -/
def reqTrackUnmarshal (data : List Nat) : Option ReqTrack :=
  reqTrackUnmarshalLoop (data.length + 1) ⟨0, 0, 0, []⟩ data

theorem decodeVarint_cons_small (t : Nat) (rest : List Nat) (h : t < 128) :
    decodeVarint (t :: rest) = some (t, rest) := by
  simp [decodeVarint, decodeVarintLoop, h]
  omega

theorem unmLoop_time (fuel : Nat) (m : ReqTrack) (v : Nat) (rest : List Nat)
    (hv : v < 2 ^ 64) :
    reqTrackUnmarshalLoop (fuel + 1) m (8 :: (encodeVarint v ++ rest)) =
      reqTrackUnmarshalLoop fuel { m with time := v } rest := by
  have h1 : decodeVarint (8 :: (encodeVarint v ++ rest)) = some (8, encodeVarint v ++ rest) :=
    decodeVarint_cons_small 8 _ (by omega)
  have h2 : decodeVarint (encodeVarint v ++ rest) = some (v, rest) :=
    decodeVarint_encode v rest hv
  simp [reqTrackUnmarshalLoop, h1, h2]

theorem unmLoop_total (fuel : Nat) (m : ReqTrack) (v : Nat) (rest : List Nat)
    (hv : v < 2 ^ 64) :
    reqTrackUnmarshalLoop (fuel + 1) m (17 :: (encodeFixed64 v ++ rest)) =
      reqTrackUnmarshalLoop fuel { m with totalBits := v } rest := by
  have h1 : decodeVarint (17 :: (encodeFixed64 v ++ rest)) =
      some (17, encodeFixed64 v ++ rest) :=
    decodeVarint_cons_small 17 _ (by omega)
  simp only [reqTrackUnmarshalLoop, h1]
  have h2 : fixed64Combine (v % 256) (v / 256 % 256) (v / 65536 % 256) (v / 16777216 % 256)
      (v / 4294967296 % 256) (v / 1099511627776 % 256) (v / 281474976710656 % 256)
      (v / 72057594037927936 % 256) = v := by
    have h0 := fixed64Combine_encode v hv
    simpa [Nat.shiftRight_eq_div_pow] using h0
  norm_num [encodeFixed64, Nat.shiftRight_eq_div_pow, h2]

theorem unmLoop_count (fuel : Nat) (m : ReqTrack) (v : Nat) (rest : List Nat)
    (hv : v < 2 ^ 64) :
    reqTrackUnmarshalLoop (fuel + 1) m (24 :: (encodeVarint v ++ rest)) =
      reqTrackUnmarshalLoop fuel { m with count := v } rest := by
  have h1 : decodeVarint (24 :: (encodeVarint v ++ rest)) = some (24, encodeVarint v ++ rest) :=
    decodeVarint_cons_small 24 _ (by omega)
  have h2 : decodeVarint (encodeVarint v ++ rest) = some (v, rest) :=
    decodeVarint_encode v rest hv
  simp [reqTrackUnmarshalLoop, h1, h2]

theorem unmLoop_field (fuel : Nat) (m : ReqTrack) (s rest : List Nat)
    (hs : s.length < 2 ^ 64) :
    reqTrackUnmarshalLoop (fuel + 1) m (34 :: (encodeVarint s.length ++ (s ++ rest))) =
      reqTrackUnmarshalLoop fuel { m with fields := m.fields ++ [s] } rest := by
  have h1 : decodeVarint (34 :: (encodeVarint s.length ++ (s ++ rest))) =
      some (34, encodeVarint s.length ++ (s ++ rest)) :=
    decodeVarint_cons_small 34 _ (by omega)
  have h2 : decodeVarint (encodeVarint s.length ++ (s ++ rest)) =
      some (s.length, s ++ rest) :=
    decodeVarint_encode _ _ hs
  have hle : s.length ≤ (s ++ rest).length := by simp
  have htake : (s ++ rest).take s.length = s := List.take_left s rest
  have hdrop : (s ++ rest).drop s.length = rest := List.drop_left s rest
  simp [reqTrackUnmarshalLoop, h1, h2, hle, htake, hdrop]

theorem unmLoop_fields (fs : List (List Nat)) :
    ∀ (fuel : Nat) (m : ReqTrack), (∀ s ∈ fs, s.length < 2 ^ 64) →
    (reqTrackFieldsBytes fs).length < fuel →
    reqTrackUnmarshalLoop fuel m (reqTrackFieldsBytes fs) =
      some { m with fields := m.fields ++ fs } := by
  induction fs with
  | nil =>
    intro fuel m _ _
    simp [reqTrackFieldsBytes, reqTrackUnmarshalLoop]
  | cons s fs ih =>
    intro fuel m hwf hfuel
    have hsl : s.length < 2 ^ 64 := hwf s (by simp)
    have hshape : reqTrackFieldsBytes (s :: fs) =
        34 :: (encodeVarint s.length ++ (s ++ reqTrackFieldsBytes fs)) := by
      simp [reqTrackFieldsBytes, List.append_assoc]
    obtain ⟨f, rfl⟩ : ∃ f, fuel = f + 1 := by
      refine ⟨fuel - 1, ?_⟩
      have := hfuel
      omega
    rw [hshape, unmLoop_field f m s _ hsl]
    have hlen : 0 < (encodeVarint s.length).length := encodeVarint_length_pos _
    have hfuel2 : (reqTrackFieldsBytes fs).length < f := by
      rw [hshape] at hfuel
      simp at hfuel
      omega
    rw [ih f _ (fun t ht => hwf t (by simp [ht])) hfuel2]
    simp

theorem unm_count_fields (count : Nat) (fs : List (List Nat)) (hc : count < 2 ^ 64)
    (hfs : ∀ s ∈ fs, s.length < 2 ^ 64) :
    ∀ (fuel : Nat) (m : ReqTrack), m.count = 0 →
    ((if count ≠ 0 then 24 :: encodeVarint count else []) ++ reqTrackFieldsBytes fs).length
      < fuel →
    reqTrackUnmarshalLoop fuel m
        ((if count ≠ 0 then 24 :: encodeVarint count else []) ++ reqTrackFieldsBytes fs) =
      some { m with count := count, fields := m.fields ++ fs } := by
  intro fuel m hm hfuel
  by_cases hz : count = 0
  · subst hz
    simp only [ne_eq, not_true_eq_false, if_neg, ite_false, List.nil_append] at hfuel ⊢
    rw [unmLoop_fields fs fuel m hfs hfuel]
    obtain ⟨t, tb, c, f⟩ := m
    simp at hm
    simp [hm]
  · simp only [ne_eq, hz, not_false_eq_true, if_pos, ite_true] at hfuel ⊢
    obtain ⟨f, rfl⟩ : ∃ f, fuel = f + 1 := ⟨fuel - 1, by simp at hfuel; omega⟩
    rw [List.cons_append, unmLoop_count f m count _ hc]
    have hlen : 0 < (encodeVarint count).length := encodeVarint_length_pos _
    apply unmLoop_fields fs f _ hfs
    simp at hfuel
    omega

theorem unm_total_count_fields (bits count : Nat) (fs : List (List Nat))
    (hb : bits < 2 ^ 64) (hbn : bits ≠ 2 ^ 63) (hc : count < 2 ^ 64)
    (hfs : ∀ s ∈ fs, s.length < 2 ^ 64) :
    ∀ (fuel : Nat) (m : ReqTrack), m.totalBits = 0 → m.count = 0 →
    ((if float64IsZero bits then [] else 17 :: encodeFixed64 bits) ++
      ((if count ≠ 0 then 24 :: encodeVarint count else []) ++
        reqTrackFieldsBytes fs)).length < fuel →
    reqTrackUnmarshalLoop fuel m
        ((if float64IsZero bits then [] else 17 :: encodeFixed64 bits) ++
          ((if count ≠ 0 then 24 :: encodeVarint count else []) ++
            reqTrackFieldsBytes fs)) =
      some { m with totalBits := bits, count := count, fields := m.fields ++ fs } := by
  intro fuel m hmt hmc hfuel
  by_cases hz : float64IsZero bits
  · have hb0 : bits = 0 := by
      simp [float64IsZero] at hz
      rcases hz with h | h
      · exact h
      · exact absurd h hbn
    subst hb0
    have hcond : (if float64IsZero 0 then ([] : List Nat) else 17 :: encodeFixed64 0) = [] := by
      simp [float64IsZero]
    rw [hcond, List.nil_append] at hfuel ⊢
    rw [unm_count_fields count fs hc hfs fuel m hmc hfuel]
    obtain ⟨t, tb, c, f⟩ := m
    simp at hmt
    simp [hmt]
  · have hcond : (if float64IsZero bits then ([] : List Nat) else 17 :: encodeFixed64 bits) =
        17 :: encodeFixed64 bits := by
      simp [hz]
    rw [hcond] at hfuel ⊢
    obtain ⟨f, rfl⟩ : ∃ f, fuel = f + 1 := ⟨fuel - 1, by simp at hfuel; omega⟩
    rw [List.cons_append, unmLoop_total f m bits _ hb]
    refine unm_count_fields count fs hc hfs f { m with totalBits := bits } hmc ?_
    simp at hfuel ⊢
    omega

theorem unm_marshal (m : ReqTrack) (ht : m.time < 2 ^ 64) (hb : m.totalBits < 2 ^ 64)
    (hbn : m.totalBits ≠ 2 ^ 63) (hc : m.count < 2 ^ 64)
    (hfs : ∀ s ∈ m.fields, s.length < 2 ^ 64) :
    ∀ fuel, (reqTrackMarshal m).length < fuel →
    reqTrackUnmarshalLoop fuel ⟨0, 0, 0, []⟩ (reqTrackMarshal m) = some m := by
  intro fuel hfuel
  obtain ⟨t, tb, c, fs⟩ := m
  have hm : reqTrackMarshal ⟨t, tb, c, fs⟩ =
      (if t ≠ 0 then 8 :: encodeVarint t else []) ++
        ((if float64IsZero tb then [] else 17 :: encodeFixed64 tb) ++
          ((if c ≠ 0 then 24 :: encodeVarint c else []) ++ reqTrackFieldsBytes fs)) := by
    simp [reqTrackMarshal, List.append_assoc]
  rw [hm] at hfuel ⊢
  by_cases hz : t = 0
  · subst hz
    rw [if_neg (by simp), List.nil_append] at hfuel ⊢
    have hres := unm_total_count_fields tb c fs hb hbn hc hfs fuel ⟨0, 0, 0, []⟩ rfl rfl hfuel
    simpa using hres
  · rw [if_pos hz] at hfuel ⊢
    obtain ⟨f, rfl⟩ : ∃ f, fuel = f + 1 := ⟨fuel - 1, by simp at hfuel; omega⟩
    rw [List.cons_append, unmLoop_time f _ t _ ht]
    have hlen : 0 < (encodeVarint t).length := encodeVarint_length_pos _
    have hres := unm_total_count_fields tb c fs hb hbn hc hfs f ⟨t, 0, 0, []⟩ rfl rfl
      (by simp at hfuel ⊢; omega)
    simpa using hres

/-- `ReqTrack` round trip: for every `ReqTrack` wire message whose `Total` bit pattern
is not the negative-zero pattern `2 ^ 63`, decoding the bytes produced by encoding the
message yields the message back bit-for-bit, and encoding a fresh default (all-zero)
message produces zero bytes. (At `Total = -0.0` the encoder omits the field because
`-0.0 == 0` as a float, so decoding returns the `+0.0` bit pattern instead; see the
counterexample.) -/
theorem reqTrack_roundTrip (m : ReqTrack) (ht : m.time < 2 ^ 64) (hb : m.totalBits < 2 ^ 64)
    (hbn : m.totalBits ≠ 2 ^ 63) (hc : m.count < 2 ^ 64)
    (hfs : ∀ s ∈ m.fields, s.length < 2 ^ 64) :
    reqTrackUnmarshal (reqTrackMarshal m) = some m ∧
      reqTrackMarshal ⟨0, 0, 0, []⟩ = [] := by
  constructor
  · exact unm_marshal m ht hb hbn hc hfs _ (Nat.lt_succ_self _)
  · rfl

/-- Witness for `reqTrack_roundTrip` at the concrete message
`{Time = 5, Total bits = 3, Count = 7, Fields = ["hi"]}`. -/
theorem reqTrack_roundTrip_witness :
    ((5 : Nat) < 2 ^ 64 ∧ (3 : Nat) < 2 ^ 64 ∧ (3 : Nat) ≠ 2 ^ 63 ∧ (7 : Nat) < 2 ^ 64 ∧
      ∀ s ∈ [[104, 105]], List.length s < 2 ^ 64) ∧
    reqTrackUnmarshal (reqTrackMarshal ⟨5, 3, 7, [[104, 105]]⟩) =
        some ⟨5, 3, 7, [[104, 105]]⟩ ∧
      reqTrackMarshal ⟨0, 0, 0, []⟩ = [] :=
  ⟨by decide,
    reqTrack_roundTrip ⟨5, 3, 7, [[104, 105]]⟩ (by decide) (by decide) (by decide)
      (by decide) (by decide)⟩

structure ResTrack
deriving DecidableEq, Repr

structure ReqSync
deriving DecidableEq, Repr

structure ResSync
deriving DecidableEq, Repr

structure ReqFetch where
  from_ : Nat
  to_ : Nat
  fields : List (List Nat)
deriving DecidableEq, Repr

structure Request where
  database : List Nat
  track : Option ReqTrack
  fetch : Option ReqFetch
  sync : Option ReqSync
deriving DecidableEq, Repr

structure RequestBatch where
  idBits : Nat
  batch : List Request
deriving DecidableEq, Repr

/-- `sovProtocol`: the byte length of the varint encoding of `x` (the source loop
counts one byte per 7-bit shift until the value is exhausted). -/
def sovProtocol (x : Nat) : Nat :=
  if _h : x < 128 then 1 else 1 + sovProtocol (x / 128)
termination_by x
decreasing_by
  exact Nat.div_lt_self (by omega) (by omega)

theorem sovProtocol_eq_length (v : Nat) : sovProtocol v = (encodeVarint v).length := by
  induction v using Nat.strong_induction_on with
  | _ v ih =>
    by_cases hv : v < 128
    · rw [sovProtocol, encodeVarint, dif_pos hv, dif_pos hv]
      rfl
    · rw [sovProtocol, encodeVarint, dif_neg hv, dif_neg hv]
      rw [ih (v / 128) (Nat.div_lt_self (by omega) (by omega))]
      simp [Nat.add_comm]

/-- `ReqTrack.Size`. -/
def reqTrackSize (m : ReqTrack) : Nat :=
  (if m.time ≠ 0 then 1 + sovProtocol m.time else 0) +
  (if float64IsZero m.totalBits then 0 else 9) +
  (if m.count ≠ 0 then 1 + sovProtocol m.count else 0) +
  (m.fields.map fun s => 1 + s.length + sovProtocol s.length).sum

/-- `ReqFetch.Size`. -/
def reqFetchSize (m : ReqFetch) : Nat :=
  (if m.from_ ≠ 0 then 1 + sovProtocol m.from_ else 0) +
  (if m.to_ ≠ 0 then 1 + sovProtocol m.to_ else 0) +
  (m.fields.map fun s => 1 + s.length + sovProtocol s.length).sum

/-- `ReqSync.Size` (an empty message has size 0). -/
def reqSyncSize (_ : ReqSync) : Nat := 0

/-- Bytes of the repeated `Fields` chunks of `ReqFetch.MarshalTo`: tag `0x1a`, varint
byte length, raw string bytes. -/
def reqFetchFieldsBytes (fs : List (List Nat)) : List Nat :=
  (fs.map fun s => 26 :: (encodeVarint s.length ++ s)).flatten

/-- Byte output of `ReqFetch.MarshalTo`. Tag bytes: `0x8` from, `0x10` to, `0x1a` each
field string. -/
def reqFetchMarshal (m : ReqFetch) : List Nat :=
  (if m.from_ ≠ 0 then 8 :: encodeVarint m.from_ else []) ++
  (if m.to_ ≠ 0 then 16 :: encodeVarint m.to_ else []) ++
  reqFetchFieldsBytes m.fields

/-- `ResTrack.MarshalTo` writes nothing. -/
def resTrackMarshal (_ : ResTrack) : List Nat := []

/-- `ReqSync.MarshalTo` writes nothing. -/
def reqSyncMarshal (_ : ReqSync) : List Nat := []

/-- `ResSync.MarshalTo` writes nothing. -/
def resSyncMarshal (_ : ResSync) : List Nat := []

/-- Byte output of `Request.MarshalTo`: the `Database` string (tag `0xa`) when
non-empty, then each present nested message as tag (`0x12`/`0x1a`/`0x22`), the nested
`Size()` as a varint, and the nested `MarshalTo` bytes. -/
def requestMarshal (m : Request) : List Nat :=
  (if m.database.length ≠ 0 then 10 :: (encodeVarint m.database.length ++ m.database)
    else []) ++
  (match m.track with
    | none => []
    | some t => 18 :: (encodeVarint (reqTrackSize t) ++ reqTrackMarshal t)) ++
  (match m.fetch with
    | none => []
    | some f => 26 :: (encodeVarint (reqFetchSize f) ++ reqFetchMarshal f)) ++
  (match m.sync with
    | none => []
    | some s => 34 :: (encodeVarint (reqSyncSize s) ++ reqSyncMarshal s))

/-- `Request.Size`. -/
def requestSize (m : Request) : Nat :=
  (if m.database.length ≠ 0 then 1 + m.database.length + sovProtocol m.database.length
    else 0) +
  (match m.track with
    | none => 0
    | some t => 1 + reqTrackSize t + sovProtocol (reqTrackSize t)) +
  (match m.fetch with
    | none => 0
    | some f => 1 + reqFetchSize f + sovProtocol (reqFetchSize f)) +
  (match m.sync with
    | none => 0
    | some s => 1 + reqSyncSize s + sovProtocol (reqSyncSize s))

/-- Byte output of `RequestBatch.MarshalTo`: `Id` (tag `0x8`, varint of the `uint64`
bit pattern) when non-zero, then each `Batch` element as tag `0x12`, the element
`Size()` as a varint, and the element bytes. -/
def requestBatchMarshal (m : RequestBatch) : List Nat :=
  (if m.idBits ≠ 0 then 8 :: encodeVarint m.idBits else []) ++
  (m.batch.map fun q => 18 :: (encodeVarint (requestSize q) ++ requestMarshal q)).flatten

/-- Decode loop shared by the generated `Unmarshal` of the empty messages `ResTrack`,
`ReqSync` and `ResSync` (their three bodies are token-for-token identical): every field
is unknown, so each iteration decodes the tag varint and skips the field. -/
def emptyUnmarshalLoop : Nat → List Nat → Option Unit
  | _, [] => some ()
  | 0, _ :: _ => none
  | fuel + 1, data =>
    match decodeVarint data with
    | none => none
    | some _ =>
      match skipProtocol (data.length + 1) data with
      | none => none
      | some skippy =>
        if skippy ≤ data.length then emptyUnmarshalLoop fuel (data.drop skippy)
        else none

/-- `ResTrack.Unmarshal` (mutates no field; the resulting message is the empty one). -/
def resTrackUnmarshal (data : List Nat) : Option ResTrack :=
  (emptyUnmarshalLoop (data.length + 1) data).map fun _ => ⟨⟩

/-- `ReqSync.Unmarshal`. -/
def reqSyncUnmarshal (data : List Nat) : Option ReqSync :=
  (emptyUnmarshalLoop (data.length + 1) data).map fun _ => ⟨⟩

/-- `ResSync.Unmarshal`. -/
def resSyncUnmarshal (data : List Nat) : Option ResSync :=
  (emptyUnmarshalLoop (data.length + 1) data).map fun _ => ⟨⟩

/-- Decode loop of `ReqFetch.Unmarshal` (fields 1 and 2 varint, field 3
length-delimited, unknown fields skipped). -/
def reqFetchUnmarshalLoop : Nat → ReqFetch → List Nat → Option ReqFetch
  | _, m, [] => some m
  | 0, _, _ :: _ => none
  | fuel + 1, m, data =>
    match decodeVarint data with
    | none => none
    | some (wire, rest) =>
      let fieldNum := wire >>> 3 % 2 ^ 32
      let wireType := wire % 8
      if fieldNum = 1 then
        if wireType ≠ 0 then none else
        match decodeVarint rest with
        | none => none
        | some (v, rest2) => reqFetchUnmarshalLoop fuel { m with from_ := v } rest2
      else if fieldNum = 2 then
        if wireType ≠ 0 then none else
        match decodeVarint rest with
        | none => none
        | some (v, rest2) => reqFetchUnmarshalLoop fuel { m with to_ := v } rest2
      else if fieldNum = 3 then
        if wireType ≠ 2 then none else
        match decodeVarint rest with
        | none => none
        | some (slen, rest2) =>
          if slen ≤ rest2.length then
            reqFetchUnmarshalLoop fuel
              { m with fields := m.fields ++ [rest2.take slen] } (rest2.drop slen)
          else none
      else
        match skipProtocol (data.length + 1) data with
        | none => none
        | some skippy =>
          if skippy ≤ data.length then reqFetchUnmarshalLoop fuel m (data.drop skippy)
          else none

/-- `ReqFetch.Unmarshal` starting from a fresh zero message. -/
def reqFetchUnmarshal (data : List Nat) : Option ReqFetch :=
  reqFetchUnmarshalLoop (data.length + 1) ⟨0, 0, []⟩ data

/-- Decode loop of `Request.Unmarshal`. Field 1 sets `Database`; fields 2–4 allocate
the nested message when absent (`if m.Track == nil { m.Track = &ReqTrack{} }`) and run
the nested `Unmarshal` on the length-delimited chunk, continuing from the current
nested value otherwise. -/
def requestUnmarshalLoop : Nat → Request → List Nat → Option Request
  | _, m, [] => some m
  | 0, _, _ :: _ => none
  | fuel + 1, m, data =>
    match decodeVarint data with
    | none => none
    | some (wire, rest) =>
      let fieldNum := wire >>> 3 % 2 ^ 32
      let wireType := wire % 8
      if fieldNum = 1 then
        if wireType ≠ 2 then none else
        match decodeVarint rest with
        | none => none
        | some (slen, rest2) =>
          if slen ≤ rest2.length then
            requestUnmarshalLoop fuel { m with database := rest2.take slen }
              (rest2.drop slen)
          else none
      else if fieldNum = 2 then
        if wireType ≠ 2 then none else
        match decodeVarint rest with
        | none => none
        | some (mlen, rest2) =>
          if mlen ≤ rest2.length then
            match reqTrackUnmarshalLoop ((rest2.take mlen).length + 1)
                (m.track.getD ⟨0, 0, 0, []⟩) (rest2.take mlen) with
            | none => none
            | some t => requestUnmarshalLoop fuel { m with track := some t }
                (rest2.drop mlen)
          else none
      else if fieldNum = 3 then
        if wireType ≠ 2 then none else
        match decodeVarint rest with
        | none => none
        | some (mlen, rest2) =>
          if mlen ≤ rest2.length then
            match reqFetchUnmarshalLoop ((rest2.take mlen).length + 1)
                (m.fetch.getD ⟨0, 0, []⟩) (rest2.take mlen) with
            | none => none
            | some f => requestUnmarshalLoop fuel { m with fetch := some f }
                (rest2.drop mlen)
          else none
      else if fieldNum = 4 then
        if wireType ≠ 2 then none else
        match decodeVarint rest with
        | none => none
        | some (mlen, rest2) =>
          if mlen ≤ rest2.length then
            match emptyUnmarshalLoop ((rest2.take mlen).length + 1) (rest2.take mlen) with
            | none => none
            | some _ => requestUnmarshalLoop fuel { m with sync := some ⟨⟩ }
                (rest2.drop mlen)
          else none
      else
        match skipProtocol (data.length + 1) data with
        | none => none
        | some skippy =>
          if skippy ≤ data.length then requestUnmarshalLoop fuel m (data.drop skippy)
          else none

/-- `Request.Unmarshal` starting from a fresh zero message. -/
def requestUnmarshal (data : List Nat) : Option Request :=
  requestUnmarshalLoop (data.length + 1) ⟨[], none, none, none⟩ data

/-- Decode loop of `RequestBatch.Unmarshal`. Field 1 is the varint `Id`; field 2
appends a fresh `&Request{}` and runs its `Unmarshal` on the chunk. -/
def requestBatchUnmarshalLoop : Nat → RequestBatch → List Nat → Option RequestBatch
  | _, m, [] => some m
  | 0, _, _ :: _ => none
  | fuel + 1, m, data =>
    match decodeVarint data with
    | none => none
    | some (wire, rest) =>
      let fieldNum := wire >>> 3 % 2 ^ 32
      let wireType := wire % 8
      if fieldNum = 1 then
        if wireType ≠ 0 then none else
        match decodeVarint rest with
        | none => none
        | some (v, rest2) => requestBatchUnmarshalLoop fuel { m with idBits := v } rest2
      else if fieldNum = 2 then
        if wireType ≠ 2 then none else
        match decodeVarint rest with
        | none => none
        | some (mlen, rest2) =>
          if mlen ≤ rest2.length then
            match requestUnmarshalLoop ((rest2.take mlen).length + 1)
                ⟨[], none, none, none⟩ (rest2.take mlen) with
            | none => none
            | some q => requestBatchUnmarshalLoop fuel { m with batch := m.batch ++ [q] }
                (rest2.drop mlen)
          else none
      else
        match skipProtocol (data.length + 1) data with
        | none => none
        | some skippy =>
          if skippy ≤ data.length then requestBatchUnmarshalLoop fuel m (data.drop skippy)
          else none

/-- `RequestBatch.Unmarshal` starting from a fresh zero message. -/
def requestBatchUnmarshal (data : List Nat) : Option RequestBatch :=
  requestBatchUnmarshalLoop (data.length + 1) ⟨0, []⟩ data

/-- Well-formedness of a `ReqTrack` as a Go value: the `uint64` fields fit, every
string length fits a `uint64`, and the `Total` bit pattern is not negative zero. -/
def reqTrackWf (m : ReqTrack) : Prop :=
  m.time < 2 ^ 64 ∧ m.totalBits < 2 ^ 64 ∧ m.totalBits ≠ 2 ^ 63 ∧ m.count < 2 ^ 64 ∧
  ∀ s ∈ m.fields, s.length < 2 ^ 64

instance (m : ReqTrack) : Decidable (reqTrackWf m) := by
  unfold reqTrackWf
  infer_instance

/-- Well-formedness of a `ReqFetch` as a Go value. -/
def reqFetchWf (m : ReqFetch) : Prop :=
  m.from_ < 2 ^ 64 ∧ m.to_ < 2 ^ 64 ∧ ∀ s ∈ m.fields, s.length < 2 ^ 64

instance (m : ReqFetch) : Decidable (reqFetchWf m) := by
  unfold reqFetchWf
  infer_instance

/-- Well-formedness of a `Request`: the string length fits a `uint64` and each present
nested message is well-formed with an encoding whose length fits a `uint64` (in Go every
slice length fits an `int`). -/
def requestWf (m : Request) : Prop :=
  m.database.length < 2 ^ 64 ∧
  (match m.track with
    | none => True
    | some t => reqTrackWf t ∧ (reqTrackMarshal t).length < 2 ^ 64) ∧
  (match m.fetch with
    | none => True
    | some f => reqFetchWf f ∧ (reqFetchMarshal f).length < 2 ^ 64)

/-- Well-formedness of a `RequestBatch`: the `Id` bit pattern fits a `uint64` and each
batch element is well-formed with an encoding whose length fits a `uint64`. -/
def requestBatchWf (m : RequestBatch) : Prop :=
  m.idBits < 2 ^ 64 ∧
  ∀ q ∈ m.batch, requestWf q ∧ (requestMarshal q).length < 2 ^ 64

theorem reqTrackFieldsBytes_length (fs : List (List Nat)) :
    (reqTrackFieldsBytes fs).length =
      (fs.map fun s => 1 + s.length + sovProtocol s.length).sum := by
  induction fs with
  | nil => simp [reqTrackFieldsBytes]
  | cons s fs ih =>
    simp only [reqTrackFieldsBytes, List.map_cons, List.flatten_cons, List.length_append,
      List.length_cons, List.length_append, List.sum_cons] at ih ⊢
    rw [sovProtocol_eq_length]
    omega

/-- `ReqTrack.Size` computes exactly the length of the bytes `MarshalTo` writes. -/
theorem reqTrackSize_eq (m : ReqTrack) : reqTrackSize m = (reqTrackMarshal m).length := by
  obtain ⟨t, tb, c, fs⟩ := m
  simp only [reqTrackSize, reqTrackMarshal, List.length_append, reqTrackFieldsBytes_length]
  have h1 : (if t ≠ 0 then 1 + sovProtocol t else 0) =
      (if t ≠ 0 then 8 :: encodeVarint t else []).length := by
    split <;> simp [sovProtocol_eq_length, Nat.add_comm]
  have h2 : (if float64IsZero tb then 0 else 9) =
      (if float64IsZero tb then [] else 17 :: encodeFixed64 tb).length := by
    split <;> simp [encodeFixed64]
  have h3 : (if c ≠ 0 then 1 + sovProtocol c else 0) =
      (if c ≠ 0 then 24 :: encodeVarint c else []).length := by
    split <;> simp [sovProtocol_eq_length, Nat.add_comm]
  omega

theorem reqFetchFieldsBytes_length (fs : List (List Nat)) :
    (reqFetchFieldsBytes fs).length =
      (fs.map fun s => 1 + s.length + sovProtocol s.length).sum := by
  induction fs with
  | nil => simp [reqFetchFieldsBytes]
  | cons s fs ih =>
    simp only [reqFetchFieldsBytes, List.map_cons, List.flatten_cons, List.length_append,
      List.length_cons, List.sum_cons] at ih ⊢
    rw [sovProtocol_eq_length]
    omega

/-- `ReqFetch.Size` computes exactly the length of the bytes `MarshalTo` writes. -/
theorem reqFetchSize_eq (m : ReqFetch) : reqFetchSize m = (reqFetchMarshal m).length := by
  obtain ⟨f, t, fs⟩ := m
  simp only [reqFetchSize, reqFetchMarshal, List.length_append, reqFetchFieldsBytes_length]
  have h1 : (if f ≠ 0 then 1 + sovProtocol f else 0) =
      (if f ≠ 0 then 8 :: encodeVarint f else []).length := by
    split <;> simp [sovProtocol_eq_length, Nat.add_comm]
  have h2 : (if t ≠ 0 then 1 + sovProtocol t else 0) =
      (if t ≠ 0 then 16 :: encodeVarint t else []).length := by
    split <;> simp [sovProtocol_eq_length, Nat.add_comm]
  omega

/-- `Request.Size` computes exactly the length of the bytes `MarshalTo` writes. -/
theorem requestSize_eq (m : Request) : requestSize m = (requestMarshal m).length := by
  obtain ⟨d, tr, fe, sy⟩ := m
  have e0 : encodeVarint 0 = [0] := by
    rw [encodeVarint]
    norm_num
  simp only [requestSize, requestMarshal, List.length_append]
  have h1 : (if d.length ≠ 0 then 1 + d.length + sovProtocol d.length else 0) =
      (if d.length ≠ 0 then 10 :: (encodeVarint d.length ++ d) else []).length := by
    split <;> simp [sovProtocol_eq_length] <;> omega
  have h2 : (match tr with
      | none => 0
      | some t => 1 + reqTrackSize t + sovProtocol (reqTrackSize t)) =
      (match tr with
      | none => ([] : List Nat)
      | some t => 18 :: (encodeVarint (reqTrackSize t) ++ reqTrackMarshal t)).length := by
    cases tr <;> simp [sovProtocol_eq_length, reqTrackSize_eq] <;> omega
  have h3 : (match fe with
      | none => 0
      | some f => 1 + reqFetchSize f + sovProtocol (reqFetchSize f)) =
      (match fe with
      | none => ([] : List Nat)
      | some f => 26 :: (encodeVarint (reqFetchSize f) ++ reqFetchMarshal f)).length := by
    cases fe <;> simp [sovProtocol_eq_length, reqFetchSize_eq] <;> omega
  have h4 : (match sy with
      | none => 0
      | some s => 1 + reqSyncSize s + sovProtocol (reqSyncSize s)) =
      (match sy with
      | none => ([] : List Nat)
      | some s => 34 :: (encodeVarint (reqSyncSize s) ++ reqSyncMarshal s)).length := by
    cases sy <;> simp [reqSyncSize, reqSyncMarshal, e0, sovProtocol]
  omega

/-! ### `ReqFetch` round trip -/

theorem unmFetchLoop_from (fuel : Nat) (m : ReqFetch) (v : Nat) (rest : List Nat)
    (hv : v < 2 ^ 64) :
    reqFetchUnmarshalLoop (fuel + 1) m (8 :: (encodeVarint v ++ rest)) =
      reqFetchUnmarshalLoop fuel { m with from_ := v } rest := by
  have h1 : decodeVarint (8 :: (encodeVarint v ++ rest)) = some (8, encodeVarint v ++ rest) :=
    decodeVarint_cons_small 8 _ (by omega)
  have h2 : decodeVarint (encodeVarint v ++ rest) = some (v, rest) :=
    decodeVarint_encode v rest hv
  simp [reqFetchUnmarshalLoop, h1, h2]

theorem unmFetchLoop_to (fuel : Nat) (m : ReqFetch) (v : Nat) (rest : List Nat)
    (hv : v < 2 ^ 64) :
    reqFetchUnmarshalLoop (fuel + 1) m (16 :: (encodeVarint v ++ rest)) =
      reqFetchUnmarshalLoop fuel { m with to_ := v } rest := by
  have h1 : decodeVarint (16 :: (encodeVarint v ++ rest)) = some (16, encodeVarint v ++ rest) :=
    decodeVarint_cons_small 16 _ (by omega)
  have h2 : decodeVarint (encodeVarint v ++ rest) = some (v, rest) :=
    decodeVarint_encode v rest hv
  simp [reqFetchUnmarshalLoop, h1, h2]

theorem unmFetchLoop_field (fuel : Nat) (m : ReqFetch) (s rest : List Nat)
    (hs : s.length < 2 ^ 64) :
    reqFetchUnmarshalLoop (fuel + 1) m (26 :: (encodeVarint s.length ++ (s ++ rest))) =
      reqFetchUnmarshalLoop fuel { m with fields := m.fields ++ [s] } rest := by
  have h1 : decodeVarint (26 :: (encodeVarint s.length ++ (s ++ rest))) =
      some (26, encodeVarint s.length ++ (s ++ rest)) :=
    decodeVarint_cons_small 26 _ (by omega)
  have h2 : decodeVarint (encodeVarint s.length ++ (s ++ rest)) =
      some (s.length, s ++ rest) :=
    decodeVarint_encode _ _ hs
  have hle : s.length ≤ (s ++ rest).length := by simp
  have htake : (s ++ rest).take s.length = s := List.take_left s rest
  have hdrop : (s ++ rest).drop s.length = rest := List.drop_left s rest
  simp [reqFetchUnmarshalLoop, h1, h2, hle, htake, hdrop]

theorem unmFetchLoop_fields (fs : List (List Nat)) :
    ∀ (fuel : Nat) (m : ReqFetch), (∀ s ∈ fs, s.length < 2 ^ 64) →
    (reqFetchFieldsBytes fs).length < fuel →
    reqFetchUnmarshalLoop fuel m (reqFetchFieldsBytes fs) =
      some { m with fields := m.fields ++ fs } := by
  induction fs with
  | nil =>
    intro fuel m _ _
    simp [reqFetchFieldsBytes, reqFetchUnmarshalLoop]
  | cons s fs ih =>
    intro fuel m hwf hfuel
    have hsl : s.length < 2 ^ 64 := hwf s (by simp)
    have hshape : reqFetchFieldsBytes (s :: fs) =
        26 :: (encodeVarint s.length ++ (s ++ reqFetchFieldsBytes fs)) := by
      simp [reqFetchFieldsBytes, List.append_assoc]
    obtain ⟨f, rfl⟩ : ∃ f, fuel = f + 1 := by
      refine ⟨fuel - 1, ?_⟩
      have := hfuel
      omega
    rw [hshape, unmFetchLoop_field f m s _ hsl]
    have hlen : 0 < (encodeVarint s.length).length := encodeVarint_length_pos _
    have hfuel2 : (reqFetchFieldsBytes fs).length < f := by
      rw [hshape] at hfuel
      simp at hfuel
      omega
    rw [ih f _ (fun t ht => hwf t (by simp [ht])) hfuel2]
    simp

theorem unmFetch_to_fields (tv : Nat) (fs : List (List Nat)) (htv : tv < 2 ^ 64)
    (hfs : ∀ s ∈ fs, s.length < 2 ^ 64) :
    ∀ (fuel : Nat) (m : ReqFetch), m.to_ = 0 →
    ((if tv ≠ 0 then 16 :: encodeVarint tv else []) ++ reqFetchFieldsBytes fs).length
      < fuel →
    reqFetchUnmarshalLoop fuel m
        ((if tv ≠ 0 then 16 :: encodeVarint tv else []) ++ reqFetchFieldsBytes fs) =
      some { m with to_ := tv, fields := m.fields ++ fs } := by
  intro fuel m hm hfuel
  by_cases hz : tv = 0
  · subst hz
    simp only [ne_eq, not_true_eq_false, if_neg, ite_false, List.nil_append] at hfuel ⊢
    rw [unmFetchLoop_fields fs fuel m hfs hfuel]
    obtain ⟨a, b, c⟩ := m
    simp at hm
    simp [hm]
  · simp only [ne_eq, hz, not_false_eq_true, if_pos, ite_true] at hfuel ⊢
    obtain ⟨f, rfl⟩ : ∃ f, fuel = f + 1 := ⟨fuel - 1, by simp at hfuel; omega⟩
    rw [List.cons_append, unmFetchLoop_to f m tv _ htv]
    have hlen : 0 < (encodeVarint tv).length := encodeVarint_length_pos _
    apply unmFetchLoop_fields fs f _ hfs
    simp at hfuel
    omega

theorem unmFetch_marshal (m : ReqFetch) (hf : m.from_ < 2 ^ 64) (ht : m.to_ < 2 ^ 64)
    (hfs : ∀ s ∈ m.fields, s.length < 2 ^ 64) :
    ∀ fuel, (reqFetchMarshal m).length < fuel →
    reqFetchUnmarshalLoop fuel ⟨0, 0, []⟩ (reqFetchMarshal m) = some m := by
  intro fuel hfuel
  obtain ⟨fv, tv, fs⟩ := m
  have hm : reqFetchMarshal ⟨fv, tv, fs⟩ =
      (if fv ≠ 0 then 8 :: encodeVarint fv else []) ++
        ((if tv ≠ 0 then 16 :: encodeVarint tv else []) ++ reqFetchFieldsBytes fs) := by
    simp [reqFetchMarshal, List.append_assoc]
  rw [hm] at hfuel ⊢
  by_cases hz : fv = 0
  · subst hz
    rw [if_neg (by simp), List.nil_append] at hfuel ⊢
    have hres := unmFetch_to_fields tv fs ht hfs fuel ⟨0, 0, []⟩ rfl hfuel
    simpa using hres
  · rw [if_pos hz] at hfuel ⊢
    obtain ⟨f, rfl⟩ : ∃ f, fuel = f + 1 := ⟨fuel - 1, by simp at hfuel; omega⟩
    rw [List.cons_append, unmFetchLoop_from f _ fv _ hf]
    have hlen : 0 < (encodeVarint fv).length := encodeVarint_length_pos _
    have hres := unmFetch_to_fields tv fs ht hfs f ⟨fv, 0, []⟩ rfl
      (by simp at hfuel ⊢; omega)
    simpa using hres

/-! ### `Request` round trip -/

theorem unmReqLoop_database (fuel : Nat) (m : Request) (s rest : List Nat)
    (hs : s.length < 2 ^ 64) :
    requestUnmarshalLoop (fuel + 1) m (10 :: (encodeVarint s.length ++ (s ++ rest))) =
      requestUnmarshalLoop fuel { m with database := s } rest := by
  have h1 : decodeVarint (10 :: (encodeVarint s.length ++ (s ++ rest))) =
      some (10, encodeVarint s.length ++ (s ++ rest)) :=
    decodeVarint_cons_small 10 _ (by omega)
  have h2 : decodeVarint (encodeVarint s.length ++ (s ++ rest)) =
      some (s.length, s ++ rest) :=
    decodeVarint_encode _ _ hs
  have hle : s.length ≤ (s ++ rest).length := by simp
  have htake : (s ++ rest).take s.length = s := List.take_left s rest
  have hdrop : (s ++ rest).drop s.length = rest := List.drop_left s rest
  simp [requestUnmarshalLoop, h1, h2, hle, htake, hdrop]

theorem unmReqLoop_track (fuel : Nat) (m : Request) (t : ReqTrack) (rest : List Nat)
    (hm : m.track = none) (hwf : reqTrackWf t)
    (hlen : (reqTrackMarshal t).length < 2 ^ 64) :
    requestUnmarshalLoop (fuel + 1) m
        (18 :: (encodeVarint (reqTrackSize t) ++ (reqTrackMarshal t ++ rest))) =
      requestUnmarshalLoop fuel { m with track := some t } rest := by
  obtain ⟨hw1, hw2, hw3, hw4, hw5⟩ := hwf
  rw [reqTrackSize_eq]
  have h1 : decodeVarint (18 :: (encodeVarint (reqTrackMarshal t).length ++
      (reqTrackMarshal t ++ rest))) =
      some (18, encodeVarint (reqTrackMarshal t).length ++ (reqTrackMarshal t ++ rest)) :=
    decodeVarint_cons_small 18 _ (by omega)
  have h2 : decodeVarint (encodeVarint (reqTrackMarshal t).length ++
      (reqTrackMarshal t ++ rest)) =
      some ((reqTrackMarshal t).length, reqTrackMarshal t ++ rest) :=
    decodeVarint_encode _ _ hlen
  have hle : (reqTrackMarshal t).length ≤ (reqTrackMarshal t ++ rest).length := by simp
  have htake : (reqTrackMarshal t ++ rest).take (reqTrackMarshal t).length =
      reqTrackMarshal t := List.take_left _ rest
  have hdrop : (reqTrackMarshal t ++ rest).drop (reqTrackMarshal t).length = rest :=
    List.drop_left _ rest
  have hnested : reqTrackUnmarshalLoop ((reqTrackMarshal t).length + 1)
      (m.track.getD ⟨0, 0, 0, []⟩) (reqTrackMarshal t) = some t := by
    rw [hm]
    exact unm_marshal t hw1 hw2 hw3 hw4 hw5 _ (Nat.lt_succ_self _)
  simp [requestUnmarshalLoop, h1, h2, hle, htake, hdrop, hnested]

theorem unmReqLoop_fetch (fuel : Nat) (m : Request) (f : ReqFetch) (rest : List Nat)
    (hm : m.fetch = none) (hwf : reqFetchWf f)
    (hlen : (reqFetchMarshal f).length < 2 ^ 64) :
    requestUnmarshalLoop (fuel + 1) m
        (26 :: (encodeVarint (reqFetchSize f) ++ (reqFetchMarshal f ++ rest))) =
      requestUnmarshalLoop fuel { m with fetch := some f } rest := by
  obtain ⟨hw1, hw2, hw3⟩ := hwf
  rw [reqFetchSize_eq]
  have h1 : decodeVarint (26 :: (encodeVarint (reqFetchMarshal f).length ++
      (reqFetchMarshal f ++ rest))) =
      some (26, encodeVarint (reqFetchMarshal f).length ++ (reqFetchMarshal f ++ rest)) :=
    decodeVarint_cons_small 26 _ (by omega)
  have h2 : decodeVarint (encodeVarint (reqFetchMarshal f).length ++
      (reqFetchMarshal f ++ rest)) =
      some ((reqFetchMarshal f).length, reqFetchMarshal f ++ rest) :=
    decodeVarint_encode _ _ hlen
  have hle : (reqFetchMarshal f).length ≤ (reqFetchMarshal f ++ rest).length := by simp
  have htake : (reqFetchMarshal f ++ rest).take (reqFetchMarshal f).length =
      reqFetchMarshal f := List.take_left _ rest
  have hdrop : (reqFetchMarshal f ++ rest).drop (reqFetchMarshal f).length = rest :=
    List.drop_left _ rest
  have hnested : reqFetchUnmarshalLoop ((reqFetchMarshal f).length + 1)
      (m.fetch.getD ⟨0, 0, []⟩) (reqFetchMarshal f) = some f := by
    rw [hm]
    exact unmFetch_marshal f hw1 hw2 hw3 _ (Nat.lt_succ_self _)
  simp [requestUnmarshalLoop, h1, h2, hle, htake, hdrop, hnested]

theorem unmReqLoop_sync (fuel : Nat) (m : Request) (rest : List Nat) :
    requestUnmarshalLoop (fuel + 1) m (34 :: (encodeVarint 0 ++ rest)) =
      requestUnmarshalLoop fuel { m with sync := some ⟨⟩ } rest := by
  have e0 : encodeVarint 0 = [0] := by
    rw [encodeVarint]
    norm_num
  have h1 : decodeVarint (34 :: (encodeVarint 0 ++ rest)) =
      some (34, encodeVarint 0 ++ rest) :=
    decodeVarint_cons_small 34 _ (by omega)
  have h2 : decodeVarint (encodeVarint 0 ++ rest) = some (0, rest) :=
    decodeVarint_encode _ _ (by omega)
  simp [requestUnmarshalLoop, h1, h2, emptyUnmarshalLoop]

/-- The `Database` segment of `Request.MarshalTo`. -/
def dbSeg (d : List Nat) : List Nat :=
  if d.length ≠ 0 then 10 :: (encodeVarint d.length ++ d) else []

/-- The `Track` segment of `Request.MarshalTo`. -/
def trackSeg : Option ReqTrack → List Nat
  | none => []
  | some t => 18 :: (encodeVarint (reqTrackSize t) ++ reqTrackMarshal t)

/-- The `Fetch` segment of `Request.MarshalTo`. -/
def fetchSeg : Option ReqFetch → List Nat
  | none => []
  | some f => 26 :: (encodeVarint (reqFetchSize f) ++ reqFetchMarshal f)

/-- The `Sync` segment of `Request.MarshalTo`. -/
def syncSeg : Option ReqSync → List Nat
  | none => []
  | some s => 34 :: (encodeVarint (reqSyncSize s) ++ reqSyncMarshal s)

theorem requestMarshal_decomp (m : Request) :
    requestMarshal m =
      dbSeg m.database ++ (trackSeg m.track ++ (fetchSeg m.fetch ++ syncSeg m.sync)) := by
  obtain ⟨d, tr, fe, sy⟩ := m
  simp only [requestMarshal, dbSeg, List.append_assoc]
  cases tr <;> cases fe <;> cases sy <;> simp [trackSeg, fetchSeg, syncSeg]

theorem unmReq_sync (sy : Option ReqSync) :
    ∀ (fuel : Nat) (m : Request), m.sync = none → (syncSeg sy).length < fuel →
    requestUnmarshalLoop fuel m (syncSeg sy) = some { m with sync := sy } := by
  intro fuel m hm hfuel
  cases sy with
  | none =>
    obtain ⟨d, tr, fe, syf⟩ := m
    simp at hm
    cases fuel <;> simp [syncSeg, requestUnmarshalLoop, hm]
  | some s =>
    simp only [syncSeg] at hfuel ⊢
    obtain ⟨f, rfl⟩ : ∃ f, fuel = f + 1 := ⟨fuel - 1, by simp at hfuel; omega⟩
    have hseg : (34 :: (encodeVarint (reqSyncSize s) ++ reqSyncMarshal s)) =
        34 :: (encodeVarint 0 ++ []) := rfl
    rw [hseg, unmReqLoop_sync f m []]
    cases s
    cases f <;> simp [requestUnmarshalLoop]

theorem unmReq_fetch_sync (fe : Option ReqFetch) (sy : Option ReqSync)
    (hfe : ∀ f, fe = some f → reqFetchWf f ∧ (reqFetchMarshal f).length < 2 ^ 64) :
    ∀ (fuel : Nat) (m : Request), m.fetch = none → m.sync = none →
    (fetchSeg fe ++ syncSeg sy).length < fuel →
    requestUnmarshalLoop fuel m (fetchSeg fe ++ syncSeg sy) =
      some { m with fetch := fe, sync := sy } := by
  intro fuel m hmf hms hfuel
  cases fe with
  | none =>
    rw [show fetchSeg none = [] from rfl, List.nil_append] at hfuel ⊢
    have hres := unmReq_sync sy fuel m hms hfuel
    obtain ⟨d, tr, fef, syf⟩ := m
    simp at hmf
    subst hmf
    exact hres
  | some f =>
    obtain ⟨hw, hlen⟩ := hfe f rfl
    simp only [fetchSeg] at hfuel ⊢
    obtain ⟨fu, rfl⟩ : ∃ fu, fuel = fu + 1 := ⟨fuel - 1, by simp at hfuel; omega⟩
    have hshape : (26 :: (encodeVarint (reqFetchSize f) ++ reqFetchMarshal f)) ++
        syncSeg sy =
        26 :: (encodeVarint (reqFetchSize f) ++ (reqFetchMarshal f ++ syncSeg sy)) := by
      simp [List.append_assoc]
    rw [hshape, unmReqLoop_fetch fu m f _ hmf hw hlen]
    refine unmReq_sync sy fu { m with fetch := some f } hms ?_
    rw [hshape] at hfuel
    rw [reqFetchSize_eq] at hfuel
    simp only [List.length_cons, List.length_append] at hfuel ⊢
    have := encodeVarint_length_pos (reqFetchMarshal f).length
    omega

theorem unmReq_track_fetch_sync (tr : Option ReqTrack) (fe : Option ReqFetch)
    (sy : Option ReqSync)
    (htr : ∀ t, tr = some t → reqTrackWf t ∧ (reqTrackMarshal t).length < 2 ^ 64)
    (hfe : ∀ f, fe = some f → reqFetchWf f ∧ (reqFetchMarshal f).length < 2 ^ 64) :
    ∀ (fuel : Nat) (m : Request), m.track = none → m.fetch = none → m.sync = none →
    (trackSeg tr ++ (fetchSeg fe ++ syncSeg sy)).length < fuel →
    requestUnmarshalLoop fuel m (trackSeg tr ++ (fetchSeg fe ++ syncSeg sy)) =
      some { m with track := tr, fetch := fe, sync := sy } := by
  intro fuel m hmt hmf hms hfuel
  cases tr with
  | none =>
    rw [show trackSeg none = [] from rfl, List.nil_append] at hfuel ⊢
    have hres := unmReq_fetch_sync fe sy hfe fuel m hmf hms hfuel
    obtain ⟨d, trf, fef, syf⟩ := m
    simp at hmt
    subst hmt
    exact hres
  | some t =>
    obtain ⟨hw, hlen⟩ := htr t rfl
    simp only [trackSeg] at hfuel ⊢
    obtain ⟨fu, rfl⟩ : ∃ fu, fuel = fu + 1 := ⟨fuel - 1, by simp at hfuel; omega⟩
    have hshape : (18 :: (encodeVarint (reqTrackSize t) ++ reqTrackMarshal t)) ++
        (fetchSeg fe ++ syncSeg sy) =
        18 :: (encodeVarint (reqTrackSize t) ++ (reqTrackMarshal t ++
          (fetchSeg fe ++ syncSeg sy))) := by
      simp [List.append_assoc]
    rw [hshape, unmReqLoop_track fu m t _ hmt hw hlen]
    refine unmReq_fetch_sync fe sy hfe fu { m with track := some t } hmf hms ?_
    rw [hshape] at hfuel
    rw [reqTrackSize_eq] at hfuel
    simp only [List.length_cons, List.length_append] at hfuel ⊢
    have := encodeVarint_length_pos (reqTrackMarshal t).length
    omega

theorem requestUnm_marshal (m : Request) (hwf : requestWf m) :
    ∀ fuel, (requestMarshal m).length < fuel →
    requestUnmarshalLoop fuel ⟨[], none, none, none⟩ (requestMarshal m) = some m := by
  intro fuel hfuel
  obtain ⟨d, tr, fe, sy⟩ := m
  simp only [requestWf] at hwf
  obtain ⟨hd, htr0, hfe0⟩ := hwf
  have htr : ∀ t, tr = some t → reqTrackWf t ∧ (reqTrackMarshal t).length < 2 ^ 64 := by
    intro t ht
    subst ht
    exact htr0
  have hfe : ∀ f, fe = some f → reqFetchWf f ∧ (reqFetchMarshal f).length < 2 ^ 64 := by
    intro f hf
    subst hf
    exact hfe0
  rw [requestMarshal_decomp] at hfuel ⊢
  simp only at hfuel ⊢
  by_cases hz : d.length = 0
  · have hdz : d = [] := List.length_eq_zero.mp hz
    subst hdz
    rw [show dbSeg [] = [] from rfl, List.nil_append] at hfuel ⊢
    exact unmReq_track_fetch_sync tr fe sy htr hfe fuel ⟨[], none, none, none⟩
      rfl rfl rfl hfuel
  · rw [show dbSeg d = 10 :: (encodeVarint d.length ++ d) from by simp [dbSeg, hz]]
      at hfuel ⊢
    obtain ⟨fu, rfl⟩ : ∃ fu, fuel = fu + 1 := ⟨fuel - 1, by simp at hfuel; omega⟩
    have hshape : (10 :: (encodeVarint d.length ++ d)) ++
        (trackSeg tr ++ (fetchSeg fe ++ syncSeg sy)) =
        10 :: (encodeVarint d.length ++ (d ++
          (trackSeg tr ++ (fetchSeg fe ++ syncSeg sy)))) := by
      simp [List.append_assoc]
    rw [hshape, unmReqLoop_database fu _ d _ hd]
    refine unmReq_track_fetch_sync tr fe sy htr hfe fu ⟨d, none, none, none⟩
      rfl rfl rfl ?_
    rw [hshape] at hfuel
    simp only [List.length_cons, List.length_append] at hfuel ⊢
    omega

/-! ### `RequestBatch` round trip -/

/-- The repeated `Batch` chunks of `RequestBatch.MarshalTo`. -/
def batchChunks (qs : List Request) : List Nat :=
  (qs.map fun q => 18 :: (encodeVarint (requestSize q) ++ requestMarshal q)).flatten

theorem requestBatchMarshal_decomp (m : RequestBatch) :
    requestBatchMarshal m =
      (if m.idBits ≠ 0 then 8 :: encodeVarint m.idBits else []) ++ batchChunks m.batch :=
  rfl

theorem unmBatchLoop_id (fuel : Nat) (m : RequestBatch) (v : Nat) (rest : List Nat)
    (hv : v < 2 ^ 64) :
    requestBatchUnmarshalLoop (fuel + 1) m (8 :: (encodeVarint v ++ rest)) =
      requestBatchUnmarshalLoop fuel { m with idBits := v } rest := by
  have h1 : decodeVarint (8 :: (encodeVarint v ++ rest)) = some (8, encodeVarint v ++ rest) :=
    decodeVarint_cons_small 8 _ (by omega)
  have h2 : decodeVarint (encodeVarint v ++ rest) = some (v, rest) :=
    decodeVarint_encode v rest hv
  simp [requestBatchUnmarshalLoop, h1, h2]

theorem unmBatchLoop_elem (fuel : Nat) (m : RequestBatch) (q : Request) (rest : List Nat)
    (hwf : requestWf q) (hlen : (requestMarshal q).length < 2 ^ 64) :
    requestBatchUnmarshalLoop (fuel + 1) m
        (18 :: (encodeVarint (requestSize q) ++ (requestMarshal q ++ rest))) =
      requestBatchUnmarshalLoop fuel { m with batch := m.batch ++ [q] } rest := by
  rw [requestSize_eq]
  have h1 : decodeVarint (18 :: (encodeVarint (requestMarshal q).length ++
      (requestMarshal q ++ rest))) =
      some (18, encodeVarint (requestMarshal q).length ++ (requestMarshal q ++ rest)) :=
    decodeVarint_cons_small 18 _ (by omega)
  have h2 : decodeVarint (encodeVarint (requestMarshal q).length ++
      (requestMarshal q ++ rest)) =
      some ((requestMarshal q).length, requestMarshal q ++ rest) :=
    decodeVarint_encode _ _ hlen
  have hle : (requestMarshal q).length ≤ (requestMarshal q ++ rest).length := by simp
  have htake : (requestMarshal q ++ rest).take (requestMarshal q).length =
      requestMarshal q := List.take_left _ rest
  have hdrop : (requestMarshal q ++ rest).drop (requestMarshal q).length = rest :=
    List.drop_left _ rest
  have hnested : requestUnmarshalLoop ((requestMarshal q).length + 1)
      ⟨[], none, none, none⟩ (requestMarshal q) = some q :=
    requestUnm_marshal q hwf _ (Nat.lt_succ_self _)
  simp [requestBatchUnmarshalLoop, h1, h2, hle, htake, hdrop, hnested]

theorem unmBatchLoop_elems (qs : List Request) :
    ∀ (fuel : Nat) (m : RequestBatch),
    (∀ q ∈ qs, requestWf q ∧ (requestMarshal q).length < 2 ^ 64) →
    (batchChunks qs).length < fuel →
    requestBatchUnmarshalLoop fuel m (batchChunks qs) =
      some { m with batch := m.batch ++ qs } := by
  induction qs with
  | nil =>
    intro fuel m _ _
    simp [batchChunks, requestBatchUnmarshalLoop]
  | cons q qs ih =>
    intro fuel m hwf hfuel
    obtain ⟨hq, hql⟩ := hwf q (by simp)
    have hshape : batchChunks (q :: qs) =
        18 :: (encodeVarint (requestSize q) ++ (requestMarshal q ++ batchChunks qs)) := by
      simp [batchChunks, List.append_assoc]
    obtain ⟨f, rfl⟩ : ∃ f, fuel = f + 1 := by
      refine ⟨fuel - 1, ?_⟩
      have := hfuel
      omega
    rw [hshape, unmBatchLoop_elem f m q _ hq hql]
    have hfuel2 : (batchChunks qs).length < f := by
      rw [hshape] at hfuel
      rw [requestSize_eq] at hfuel
      simp only [List.length_cons, List.length_append] at hfuel
      have := encodeVarint_length_pos (requestMarshal q).length
      omega
    rw [ih f _ (fun t ht => hwf t (by simp [ht])) hfuel2]
    simp

theorem unmBatch_marshal (m : RequestBatch) (hwf : requestBatchWf m) :
    ∀ fuel, (requestBatchMarshal m).length < fuel →
    requestBatchUnmarshalLoop fuel ⟨0, []⟩ (requestBatchMarshal m) = some m := by
  intro fuel hfuel
  obtain ⟨idv, qs⟩ := m
  simp only [requestBatchWf] at hwf
  obtain ⟨hid, hqs⟩ := hwf
  rw [requestBatchMarshal_decomp] at hfuel ⊢
  simp only at hfuel ⊢
  by_cases hz : idv = 0
  · subst hz
    rw [if_neg (by simp), List.nil_append] at hfuel ⊢
    have hres := unmBatchLoop_elems qs fuel ⟨0, []⟩ hqs hfuel
    simpa using hres
  · rw [if_pos hz] at hfuel ⊢
    obtain ⟨f, rfl⟩ : ∃ f, fuel = f + 1 := ⟨fuel - 1, by simp at hfuel; omega⟩
    rw [List.cons_append, unmBatchLoop_id f _ idv _ hid]
    have hres := unmBatchLoop_elems qs f ⟨idv, []⟩ hqs
      (by simp only [List.length_cons, List.length_append] at hfuel ⊢
          have := encodeVarint_length_pos idv
          omega)
    simpa using hres

abbrev GoStr := List Nat

structure Item where
  fields : List GoStr
  value : Nat
deriving DecidableEq, Repr

/-- `NoValue = ^uint32(0)`, the sentinel for "no value at this node". -/
def NoValue : Nat := 2 ^ 32 - 1

inductive Node where
  | mk (item : Item) (children : List (GoStr × Node))

def Node.item : Node → Item
  | .mk it _ => it

def Node.children : Node → List (GoStr × Node)
  | .mk _ cs => cs

/-- Go map read `children[f]`. -/
def lookupChild : List (GoStr × Node) → GoStr → Option Node
  | [], _ => none
  | (k, n) :: rest, f => if k = f then some n else lookupChild rest f

/-- Go map assignment `children[f] = nd` (replace if present, insert otherwise). -/
def setChild : List (GoStr × Node) → GoStr → Node → List (GoStr × Node)
  | [], f, nd => [(f, nd)]
  | (k, n) :: rest, f, nd => if k = f then (k, nd) :: rest else (k, n) :: setChild rest f nd

/-- `index.One`: walk the trie along `fields`; an empty field is `ErrNoWild`, a missing
edge is `ErrNoItem`, and a terminal node with `Value == NoValue` is `ErrNoItem`. -/
def oneWalk : Node → List GoStr → Except Err Item
  | n, [] => if n.item.value = NoValue then .error .noItem else .ok n.item
  | n, f :: fs =>
    if f = [] then .error .noWild
    else
      match lookupChild n.children f with
      | none => .error .noItem
      | some c => oneWalk c fs

/-- `index.add` along the remaining fields `fs` (depth `i` fields already walked):
intermediate missing nodes are created with `Fields = nd.Fields[:i+1]` and
`Value = NoValue`; at the final field an existing node has its value updated in place
(intermediate-to-valued promotion), otherwise the new leaf is inserted. An empty fields
slice makes the source panic on `nd.Fields[:count-1]`, modelled as `none`. -/
def addAux (it : Item) : Nat → List GoStr → Node → Option Node
  | _, [], _ => none
  | _, [f], .mk nitem cs =>
    match lookupChild cs f with
    | some (.mk citem ccs) =>
      some (.mk nitem (setChild cs f (.mk ⟨citem.fields, it.value⟩ ccs)))
    | none => some (.mk nitem (setChild cs f (.mk it [])))
  | i, f :: g :: fs, .mk nitem cs =>
    let child :=
      match lookupChild cs f with
      | some c => c
      | none => .mk ⟨it.fields.take (i + 1), NoValue⟩ []
    match addAux it (i + 1) (g :: fs) child with
    | some child2 => some (.mk nitem (setChild cs f child2))
    | none => none

/-- `index.add` on a whole node (fields taken from the item, starting at the root). -/
def addNode (root : Node) (it : Item) : Option Node :=
  addAux it 0 it.fields root

mutual

/-- `index.find`: collect every node of the subtree whose value is not `NoValue`
(note that this includes the subtree root itself, in particular the index root node
whose fresh `Item{}` has value `0`). -/
def findItems : Node → List Item
  | .mk it cs => (if it.value ≠ NoValue then [it] else []) ++ findItemsChildren cs

def findItemsChildren : List (GoStr × Node) → List Item
  | [] => []
  | (_, c) :: rest => findItems c ++ findItemsChildren rest

end

/-- Prefix walk of `index.Get`: follow non-empty fields from the root; at the first
empty field stop and report whether any field at that position or later is non-empty
(`needsFilter`); a missing edge means an empty result (`none` here, mapped to `[]`). -/
def getWalk : Node → List GoStr → Option (Node × Bool)
  | root, [] => some (root, false)
  | root, f :: fs =>
    if f = [] then some (root, fs.any fun s => decide (s ≠ []))
    else
      match lookupChild root.children f with
      | none => none
      | some c => getWalk c fs

/-- Post-filter of one collected item in `index.Get`: the source iterates
`for j := range item.Fields` and evaluates `fields[j] != "" && fields[j] != item.Fields[j]`;
the access `fields[j]` panics (modelled `none`) whenever the loop reaches an index
`j ≥ len(fields)`. -/
def postFilter (fields : List GoStr) : List GoStr → Nat → Option Bool
  | [], _ => some true
  | x :: xs, j =>
    match fields[j]? with
    | none => none
    | some fj => if fj ≠ [] ∧ fj ≠ x then some false else postFilter fields xs (j + 1)

/-- Filtering loop of `index.Get` over the collected items (`filtered := items[:0]` keeps
the passing items in order); a panic in any filter aborts the call. -/
def filterItems (fields : List GoStr) : List Item → Option (List Item)
  | [] => some []
  | it :: rest =>
    match postFilter fields it.fields 0 with
    | none => none
    | some true => (filterItems fields rest).map (it :: ·)
    | some false => filterItems fields rest

/-- `index.Get` (without the metrics counter): `none` models a runtime panic. -/
def indexGet (root : Node) (fields : List GoStr) : Option (List Item) :=
  match getWalk root fields with
  | none => some []
  | some (sub, needsFilter) =>
    if needsFilter then filterItems fields (findItems sub) else some (findItems sub)

/-! ## Item serialization

The `Item` protobuf code (`index.pb.go`) is not part of `src/`. -/

/-- Modelled from the spec: bytes of the repeated `fields` chunks of an index item —
§4.2.2 says item bytes use "the same varint/length-delimited format as the network
protocol", so each field string is length-delimited under tag `0x0a` (field 1,
wire type 2), exactly like the repeated strings of the network messages. -/
def itemFieldsBytes (fs : List GoStr) : List Nat :=
  (fs.map fun s => 10 :: (encodeVarint s.length ++ s)).flatten

/-- Modelled from the spec: serialization of an index `Item` (`proto.Marshal(nd.Item)`,
whose generated code is not under `src/`) — repeated string `fields` (field 1,
length-delimited) followed by varint `value` (field 2, tag `0x10`), with the
default-zero value omitted, per the wire format of §4.2.2/§6.3. -/
def itemMarshal (it : Item) : List Nat :=
  itemFieldsBytes it.fields ++ (if it.value ≠ 0 then 16 :: encodeVarint it.value else [])

/-- Modelled from the spec: decode loop for an index `Item` (`proto.Unmarshal`), in the
same shape as the in-repository generated decoders (`ReqTrack.Unmarshal` etc.): tagged
fields, unknown tags skipped, fuel bounds the byte-consuming loop. -/
def itemUnmarshalLoop : Nat → Item → List Nat → Option Item
  | _, it, [] => some it
  | 0, _, _ :: _ => none
  | fuel + 1, it, data =>
    match decodeVarint data with
    | none => none
    | some (wire, rest) =>
      let fieldNum := wire >>> 3 % 2 ^ 32
      let wireType := wire % 8
      if fieldNum = 1 then
        if wireType ≠ 2 then none else
        match decodeVarint rest with
        | none => none
        | some (slen, rest2) =>
          if slen ≤ rest2.length then
            itemUnmarshalLoop fuel { it with fields := it.fields ++ [rest2.take slen] }
              (rest2.drop slen)
          else none
      else if fieldNum = 2 then
        if wireType ≠ 0 then none else
        match decodeVarint rest with
        | none => none
        | some (v, rest2) => itemUnmarshalLoop fuel { it with value := v } rest2
      else
        match skipProtocol (data.length + 1) data with
        | none => none
        | some skippy =>
          if skippy ≤ data.length then itemUnmarshalLoop fuel it (data.drop skippy)
          else none

/-- Modelled from the spec: `proto.Unmarshal` of an index `Item` from a fresh item. -/
def itemUnmarshal (data : List Nat) : Option Item :=
  itemUnmarshalLoop (data.length + 1) ⟨[], 0⟩ data

/-! ## Append log records (`index.save` / `index.load`)

A record is `[u32 LE item byte length][item bytes]` (`binary.Write` /
`binary.Read` with `binary.LittleEndian`). -/

/-- Little-endian `uint32` bytes written by `binary.Write(idx.mmapFile,
binary.LittleEndian, itemSize)`. -/
def encodeU32LE (n : Nat) : List Nat :=
  [n % 256, (n >>> 8) % 256, (n >>> 16) % 256, (n >>> 24) % 256]

/-- Little-endian `uint32` recombination performed by `binary.Read`. -/
def u32Combine (b0 b1 b2 b3 : Nat) : Nat :=
  b0 ||| b1 <<< 8 ||| b2 <<< 16 ||| b3 <<< 24

theorem u32Combine_encode (n : Nat) (h : n < 2 ^ 32) :
    u32Combine (n % 256) ((n >>> 8) % 256) ((n >>> 16) % 256) ((n >>> 24) % 256) = n := by
  unfold u32Combine
  simp only [Nat.shiftLeft_eq, Nat.shiftRight_eq_div_pow]
  rw [lor_mul_pow_eq_add _ _ 8 (by omega)]
  rw [lor_mul_pow_eq_add _ _ 16 (by omega)]
  rw [lor_mul_pow_eq_add _ _ 24 (by omega)]
  omega

/-- The on-disk record written for a saved item: `uint32(len(itemBytes))` little-endian,
then the item bytes (`index.save`). -/
def encodeRecord (it : Item) : List Nat :=
  encodeU32LE ((itemMarshal it).length % 2 ^ 32) ++ itemMarshal it

/-- Record-parsing loop of `index.load`: read a `u32` length (zero length or exact end of
data terminates; fewer than four remaining bytes is the `binary.Read` error), check it
against the remaining bytes (`itemSize >= buffrSize - dataSize` and a short
`buffer.Read` are `ErrLoad`), decode the item, continue. -/
def parseRecords : List Nat → Except Err (List Item)
  | [] => .ok []
  | b0 :: b1 :: b2 :: b3 :: rest =>
    let size := u32Combine b0 b1 b2 b3
    if size = 0 then .ok []
    else if rest.length + 4 ≤ size then .error .load
    else if rest.length < size then .error .load
    else
      match itemUnmarshal (rest.take size) with
      | none => .error .load
      | some it =>
        match parseRecords (rest.drop size) with
        | .ok items => .ok (it :: items)
        | .error e => .error e
  | _ :: _ => .error .shortData
termination_by l => l.length
decreasing_by
  simp only [List.length_cons, List.length_drop]
  omega

/-- The root node built by `index.New` (`Item{}` and an empty child map). -/
def rootNode : Node := .mk ⟨[], 0⟩ []

/-- Replaying parsed items through `index.add`, as `index.load` does. -/
def loadTrie (items : List Item) : Option Node :=
  items.foldlM addNode rootNode

/-- The trie obtained by reopening an index whose append log holds `log`
(`index.New` → `load`). `none` models a failed load or an add panic. -/
def reopenTrie (log : List Nat) : Option Node :=
  match parseRecords log with
  | .ok items => loadTrie items
  | .error _ => none

/-! ## `index.Put` -/

/-- Mutable state of an index relevant to the claims: the in-memory trie and the bytes
of the append log (`dataSize` is the log length). -/
structure IdxState where
  trie : Node
  log : List Nat

/-- The fresh writable index produced by `index.New` on an empty file. -/
def initIdx : IdxState := ⟨rootNode, []⟩

/-- Observable actions of `index.Put`, in program order: the on-disk append performed by
`idx.save` and the in-memory insertion performed by `idx.add`. -/
inductive PutEv where
  | save (it : Item)
  | addTrie (it : Item)
deriving DecidableEq, Repr

/-- `index.Put`. `ro` is `idx.opts.ROnly`; on a read-only index the source returns
`ErrWrite` (not `ErrROnly`). `diskErr` injects a failure of the mmap append inside
`idx.save` (before any bytes land); `none` means the write succeeds. The returned event
list records the order of the save and the trie insertion. The `addNode … = none` arm is
a Go panic on an empty fields slice, unreachable after the `One` check on any reachable
index state. -/
def putGo (ro : Bool) (diskErr : Option Err) (st : IdxState) (fields : List GoStr)
    (value : Nat) : IdxState × Except Err Unit × List PutEv :=
  if ro then (st, .error .write, [])
  else if fields.any fun f => f.isEmpty then (st, .error .noWild, [])
  else
    match oneWalk st.trie fields with
    | .error .noItem =>
      match diskErr with
      | some e => (st, .error e, [])
      | none =>
        let it : Item := ⟨fields, value⟩
        let log2 := st.log ++ encodeRecord it
        match addNode st.trie it with
        | some t2 => ({ trie := t2, log := log2 }, .ok (), [.save it, .addTrie it])
        | none => ({ trie := st.trie, log := log2 }, .error .write, [.save it])
    | _ => (st, .error .itemExists, [])

/-- Replay a sequence of `Put` calls on a writable index with a healthy disk, returning
the final state and the list of successfully saved items in save order. -/
def runPutsAux : IdxState → List (List GoStr × Nat) → IdxState × List Item
  | st, [] => (st, [])
  | st, (f, v) :: ops =>
    match putGo false none st f v with
    | (st2, .ok _, _) =>
      let t := runPutsAux st2 ops
      (t.1, ⟨f, v⟩ :: t.2)
    | (st2, .error _, _) => runPutsAux st2 ops

/-! ## Trie lemmas -/

theorem lookup_set_self (cs : List (GoStr × Node)) (f : GoStr) (nd : Node) :
    lookupChild (setChild cs f nd) f = some nd := by
  induction cs with
  | nil => simp [setChild, lookupChild]
  | cons p rest ih =>
    obtain ⟨k, n⟩ := p
    by_cases hk : k = f
    · simp [setChild, lookupChild, hk]
    · simp [setChild, lookupChild, hk, ih]

theorem lookup_set_other (cs : List (GoStr × Node)) (f g : GoStr) (nd : Node)
    (h : g ≠ f) : lookupChild (setChild cs f nd) g = lookupChild cs g := by
  induction cs with
  | nil =>
    simp [setChild, lookupChild]
    intro hf
    exact absurd hf.symm h
  | cons p rest ih =>
    obtain ⟨k, n⟩ := p
    by_cases hk : k = f
    · subst hk
      have : ¬ k = g := fun hg => h (hg ▸ rfl)
      simp [setChild, lookupChild, this]
    · by_cases hg : k = g
      · subst hg
        simp [setChild, lookupChild, hk]
      · simp [setChild, lookupChild, hk, hg, ih]

theorem addAux_top_item (it : Item) (i : Nat) (fs : List GoStr) (n n2 : Node)
    (h : addAux it i fs n = some n2) : n2.item = n.item := by
  obtain ⟨nitem, cs⟩ := n
  match fs with
  | [] => simp [addAux] at h
  | [f] =>
    rw [addAux] at h
    rcases hl : lookupChild cs f with _ | c
    · rw [hl] at h
      simp at h
      rw [← h]
      rfl
    · obtain ⟨citem, ccs⟩ := c
      rw [hl] at h
      simp at h
      rw [← h]
      rfl
  | f :: g :: fs =>
    rw [addAux] at h
    rcases ha : addAux it (i + 1) (g :: fs)
        (match lookupChild cs f with
         | some c => c
         | none => .mk ⟨it.fields.take (i + 1), NoValue⟩ []) with _ | child2
    · rw [ha] at h
      simp at h
    · rw [ha] at h
      simp at h
      rw [← h]
      rfl

theorem addAux_isSome (it : Item) :
    ∀ (fs : List GoStr) (i : Nat) (n : Node), fs ≠ [] →
    ∃ n2, addAux it i fs n = some n2 := by
  intro fs
  induction fs with
  | nil => intro _ _ h; exact absurd rfl h
  | cons f rest ih =>
    intro i n _
    obtain ⟨nitem, cs⟩ := n
    match rest with
    | [] =>
      rw [addAux]
      rcases lookupChild cs f with _ | ⟨citem, ccs⟩ <;> simp
    | g :: fs2 =>
      obtain ⟨child2, hc⟩ := ih (i + 1)
        (match lookupChild cs f with
         | some c => c
         | none => .mk ⟨it.fields.take (i + 1), NoValue⟩ []) (by simp)
      rw [addAux, hc]
      simp

/-- Walking the added path after `index.add` finds the added value (the node item's
fields may be those of a promoted intermediate, but its value is the new one). -/
theorem one_after_add (it : Item) :
    ∀ (fs : List GoStr) (i : Nat) (n n2 : Node), fs ≠ [] → (∀ s ∈ fs, s ≠ []) →
    it.value ≠ NoValue → addAux it i fs n = some n2 →
    ∃ w, oneWalk n2 fs = .ok w ∧ w.value = it.value := by
  intro fs
  induction fs with
  | nil => intro _ _ _ h; exact absurd rfl h
  | cons f rest ih =>
    intro i n n2 _ hwild hval hadd
    obtain ⟨nitem, cs⟩ := n
    have hf : f ≠ [] := hwild f (by simp)
    match rest with
    | [] =>
      rw [addAux] at hadd
      rcases hl : lookupChild cs f with _ | ⟨citem, ccs⟩
      · rw [hl] at hadd
        simp at hadd
        subst hadd
        refine ⟨it, ?_, rfl⟩
        simp [oneWalk, hf, Node.children, lookup_set_self, Node.item, hval]
      · rw [hl] at hadd
        simp at hadd
        subst hadd
        refine ⟨⟨citem.fields, it.value⟩, ?_, rfl⟩
        simp [oneWalk, hf, Node.children, lookup_set_self, Node.item, hval]
    | g :: fs2 =>
      rw [addAux] at hadd
      rcases ha : addAux it (i + 1) (g :: fs2)
          (match lookupChild cs f with
           | some c => c
           | none => .mk ⟨it.fields.take (i + 1), NoValue⟩ []) with _ | child2
      · rw [ha] at hadd
        simp at hadd
      · rw [ha] at hadd
        simp at hadd
        subst hadd
        obtain ⟨w, hw, hwv⟩ := ih (i + 1) _ child2 (by simp)
          (fun s hs => hwild s (by simp [hs])) hval ha
        refine ⟨w, ?_, hwv⟩
        simp [oneWalk, hf, Node.children, lookup_set_self]
        exact hw

/-- `oneWalk` on a non-empty fields list only consults the children, not the node's own
item. -/
theorem oneWalk_cons_item_irrel (a b : Item) (cs : List (GoStr × Node)) (f : GoStr)
    (fs : List GoStr) :
    oneWalk (.mk a cs) (f :: fs) = oneWalk (.mk b cs) (f :: fs) := by
  simp [oneWalk, Node.children]

/-- `index.add` of a new item does not disturb any exact lookup that succeeded before:
the only value it overwrites sits at the added path, which the pre-state resolved to
`ErrNoItem`. -/
theorem one_preserved (it : Item) :
    ∀ (fs : List GoStr) (i : Nat) (n n2 : Node) (f2 : List GoStr) (w : Item),
    addAux it i fs n = some n2 → oneWalk n fs = .error .noItem →
    oneWalk n f2 = .ok w → oneWalk n2 f2 = .ok w := by
  intro fs
  induction fs with
  | nil => intro i n n2 f2 w hadd; simp [addAux] at hadd
  | cons f rest ih =>
    intro i n n2 f2 w hadd hmiss hok
    obtain ⟨nitem, cs⟩ := n
    have hf : f ≠ [] := by
      intro hfe
      rw [hfe] at hmiss
      simp [oneWalk] at hmiss
    match rest with
    | [] =>
      rw [addAux] at hadd
      match f2 with
      | [] =>
        have hn2 : n2.item = nitem := by
          have hti := addAux_top_item it i [f] (.mk nitem cs) n2 hadd
          simpa [Node.item] using hti
        by_cases hne : nitem.value = NoValue
        · simp [oneWalk, Node.item, hne] at hok
        · simp [oneWalk, Node.item, hne] at hok
          obtain ⟨n2item, n2cs⟩ := n2
          simp [Node.item] at hn2
          subst hn2
          simp [oneWalk, Node.item, hne]
          exact hok
      | h :: t =>
        by_cases hhf : h = f
        · subst hhf
          rcases hl : lookupChild cs h with _ | c
          · rw [hl] at hadd
            simp [oneWalk, hf, Node.children, hl] at hok
          · obtain ⟨citem, ccs⟩ := c
            rw [hl] at hadd
            simp at hadd
            subst hadd
            simp [oneWalk, hf, Node.children, hl] at hok
            simp [oneWalk, hf, Node.children, lookup_set_self]
            match t with
            | [] =>
              by_cases hcv : citem.value = NoValue
              · simp [oneWalk, Node.item, hcv] at hok
              · simp [oneWalk, hf, Node.children, hl, Node.item, hcv] at hmiss
            | h2 :: t2 =>
              rw [oneWalk_cons_item_irrel ⟨citem.fields, it.value⟩ citem ccs h2 t2]
              exact hok
        · rcases hl : lookupChild cs f with _ | c
          · rw [hl] at hadd
            simp at hadd
            subst hadd
            rw [oneWalk_cons_item_irrel _ nitem]
            simp [oneWalk, hf, Node.children, lookup_set_other _ _ _ _ hhf] at hok ⊢
            exact hok
          · obtain ⟨citem, ccs⟩ := c
            rw [hl] at hadd
            simp at hadd
            subst hadd
            rw [oneWalk_cons_item_irrel _ nitem]
            simp [oneWalk, hf, Node.children, lookup_set_other _ _ _ _ hhf] at hok ⊢
            exact hok
    | g :: fs2 =>
      rw [addAux] at hadd
      rcases ha : addAux it (i + 1) (g :: fs2)
          (match lookupChild cs f with
           | some c => c
           | none => .mk ⟨it.fields.take (i + 1), NoValue⟩ []) with _ | child2
      · rw [ha] at hadd
        simp at hadd
      · rw [ha] at hadd
        simp at hadd
        subst hadd
        match f2 with
        | [] =>
          simp [oneWalk, Node.item] at hok ⊢
          exact hok
        | h :: t =>
          by_cases hhf : h = f
          · subst hhf
            rcases hl : lookupChild cs h with _ | c
            · simp [oneWalk, hf, Node.children, hl] at hok
            · rw [hl] at ha
              simp [oneWalk, hf, Node.children, hl] at hok
              have hmiss2 : oneWalk c (g :: fs2) = .error .noItem := by
                simp [oneWalk, hf, Node.children, hl] at hmiss
                exact hmiss
              simp [oneWalk, hf, Node.children, lookup_set_self]
              exact ih (i + 1) c child2 t w ha hmiss2 hok
          · rw [oneWalk_cons_item_irrel _ nitem]
            simp [oneWalk, hf, Node.children, lookup_set_other _ _ _ _ hhf] at hok ⊢
            exact hok

/-! ## Item codec round-trip -/

theorem itemUnm_field (fuel : Nat) (it : Item) (s rest : List Nat)
    (hs : s.length < 2 ^ 64) :
    itemUnmarshalLoop (fuel + 1) it (10 :: (encodeVarint s.length ++ (s ++ rest))) =
      itemUnmarshalLoop fuel { it with fields := it.fields ++ [s] } rest := by
  have h1 : decodeVarint (10 :: (encodeVarint s.length ++ (s ++ rest))) =
      some (10, encodeVarint s.length ++ (s ++ rest)) :=
    decodeVarint_cons_small 10 _ (by omega)
  have h2 : decodeVarint (encodeVarint s.length ++ (s ++ rest)) =
      some (s.length, s ++ rest) :=
    decodeVarint_encode _ _ hs
  have hle : s.length ≤ (s ++ rest).length := by simp
  have htake : (s ++ rest).take s.length = s := List.take_left s rest
  have hdrop : (s ++ rest).drop s.length = rest := List.drop_left s rest
  simp [itemUnmarshalLoop, h1, h2, hle, htake, hdrop]

theorem itemUnm_value (fuel : Nat) (it : Item) (v : Nat) (rest : List Nat)
    (hv : v < 2 ^ 64) :
    itemUnmarshalLoop (fuel + 1) it (16 :: (encodeVarint v ++ rest)) =
      itemUnmarshalLoop fuel { it with value := v } rest := by
  have h1 : decodeVarint (16 :: (encodeVarint v ++ rest)) = some (16, encodeVarint v ++ rest) :=
    decodeVarint_cons_small 16 _ (by omega)
  have h2 : decodeVarint (encodeVarint v ++ rest) = some (v, rest) :=
    decodeVarint_encode v rest hv
  simp [itemUnmarshalLoop, h1, h2]

theorem itemUnm_fields (fs : List GoStr) :
    ∀ (fuel : Nat) (it : Item) (rest : List Nat), (∀ s ∈ fs, s.length < 2 ^ 64) →
    itemUnmarshalLoop (fuel + fs.length) it (itemFieldsBytes fs ++ rest) =
      itemUnmarshalLoop fuel { it with fields := it.fields ++ fs } rest := by
  induction fs with
  | nil =>
    intro fuel it rest _
    obtain ⟨f, v⟩ := it
    simp [itemFieldsBytes]
  | cons s fs ih =>
    intro fuel it rest hwf
    have hshape : itemFieldsBytes (s :: fs) ++ rest =
        10 :: (encodeVarint s.length ++ (s ++ (itemFieldsBytes fs ++ rest))) := by
      simp [itemFieldsBytes, List.append_assoc]
    have hfadd : fuel + (s :: fs).length = (fuel + fs.length) + 1 := by
      simp
      omega
    rw [hshape, hfadd, itemUnm_field _ it s _ (hwf s (by simp))]
    rw [ih fuel _ rest (fun t ht => hwf t (by simp [ht]))]
    simp

theorem itemUnm_tail (v : Nat) (hv : v < 2 ^ 64) :
    ∀ (fuel : Nat) (it : Item), it.value = 0 →
    itemUnmarshalLoop (fuel + 1) it (if v ≠ 0 then 16 :: encodeVarint v else []) =
      some { it with value := v } := by
  intro fuel it hz
  by_cases hv0 : v = 0
  · subst hv0
    rw [if_neg (by simp)]
    obtain ⟨f, w⟩ := it
    simp at hz
    simp [itemUnmarshalLoop, hz]
  · rw [if_pos hv0]
    have := itemUnm_value fuel it v [] hv
    simpa [itemUnmarshalLoop] using this

theorem itemFieldsBytes_length_ge (fs : List GoStr) :
    fs.length ≤ (itemFieldsBytes fs).length := by
  induction fs with
  | nil => simp [itemFieldsBytes]
  | cons s fs ih =>
    simp [itemFieldsBytes] at ih ⊢
    omega

/-- Round-trip of the (spec-modelled) item codec. -/
theorem itemUnmarshal_marshal (it : Item) (hv : it.value < 2 ^ 64)
    (hfs : ∀ s ∈ it.fields, s.length < 2 ^ 64) :
    itemUnmarshal (itemMarshal it) = some it := by
  obtain ⟨fs, v⟩ := it
  unfold itemUnmarshal
  have hlen : fs.length ≤ (itemMarshal ⟨fs, v⟩).length := by
    have h1 := itemFieldsBytes_length_ge fs
    simp [itemMarshal]
    omega
  rw [show (itemMarshal ⟨fs, v⟩).length + 1 =
      (((itemMarshal ⟨fs, v⟩).length - fs.length) + 1) + fs.length from by omega]
  have hm : itemMarshal ⟨fs, v⟩ =
      itemFieldsBytes fs ++ (if v ≠ 0 then 16 :: encodeVarint v else []) := by
    simp [itemMarshal]
  rw [hm, itemUnm_fields fs _ ⟨[], 0⟩ _ (by simpa using hfs)]
  have ht := itemUnm_tail v hv ((itemMarshal ⟨fs, v⟩).length - fs.length)
    ⟨[] ++ fs, 0⟩ rfl
  simp at ht ⊢
  convert ht using 2
  simp [itemMarshal]

/-! ## Append-log parsing of saved items -/

theorem itemMarshal_length_pos (it : Item) (h : it.fields ≠ []) :
    0 < (itemMarshal it).length := by
  obtain ⟨fs, v⟩ := it
  cases fs with
  | nil => simp at h
  | cons s fs => simp [itemMarshal, itemFieldsBytes]

/-- Facts holding for every item that a successful `Put` saved: non-empty field tuple of
non-empty strings (checked by `Put`), a value below the `NoValue` sentinel, and sizes fit
the `uint32` length header and `uint64` varints. -/
def wfItemSaved (it : Item) : Prop :=
  it.fields ≠ [] ∧ (∀ s ∈ it.fields, s ≠ []) ∧ it.value < NoValue ∧
  (∀ s ∈ it.fields, s.length < 2 ^ 64) ∧ (itemMarshal it).length < 2 ^ 32

/-- `index.load` record parsing is the inverse of the record writes of `index.save`:
a concatenation of records parses back to exactly the written items. -/
theorem parseRecords_flat (items : List Item) (hwf : ∀ it ∈ items, wfItemSaved it) :
    parseRecords ((items.map encodeRecord).flatten) = .ok items := by
  induction items with
  | nil => simp [parseRecords]
  | cons it items ih =>
    obtain ⟨hne, hwild, hvlt, hslen, hmlen⟩ := hwf it (by simp)
    have hvalue64 : it.value < 2 ^ 64 := by
      have : NoValue < 2 ^ 64 := by unfold NoValue; omega
      omega
    have hlenpos : 0 < (itemMarshal it).length := itemMarshal_length_pos it hne
    have hmod : (itemMarshal it).length % 4294967296 = (itemMarshal it).length := by
      omega
    have hcomb := u32Combine_encode (itemMarshal it).length hmlen
    have hround := itemUnmarshal_marshal it hvalue64 hslen
    have hshape : ((it :: items).map encodeRecord).flatten =
        ((itemMarshal it).length % 256) :: (((itemMarshal it).length >>> 8) % 256) ::
        (((itemMarshal it).length >>> 16) % 256) ::
        (((itemMarshal it).length >>> 24) % 256) ::
        (itemMarshal it ++ (items.map encodeRecord).flatten) := by
      simp [encodeRecord, encodeU32LE, hmod, List.append_assoc]
    rw [hshape]
    rw [parseRecords]
    simp only [hcomb]
    rw [if_neg (by omega), if_neg (by simp <;> omega), if_neg (by simp <;> omega)]
    rw [List.take_left, List.drop_left, hround,
      ih (fun x hx => hwf x (by simp [hx]))]

/-! ## The put/reload invariant (C6) -/

/-- Invariant tying a reachable index state to the list of items saved so far: the root
item is the fresh `Item{}`, the log is exactly the concatenation of the saved records,
replaying the saved items rebuilds exactly the current trie, every saved item is
well-formed, and every saved item's fields resolve to its value. -/
def stInv (st : IdxState) (saved : List Item) : Prop :=
  st.trie.item = ⟨[], 0⟩ ∧
  st.log = (saved.map encodeRecord).flatten ∧
  loadTrie saved = some st.trie ∧
  (∀ it ∈ saved, wfItemSaved it) ∧
  (∀ it ∈ saved, ∃ w, oneWalk st.trie it.fields = .ok w ∧ w.value = it.value)

/-- Hypotheses on a `Put` call: the value is a genuine row id (below the `NoValue`
sentinel) and sizes fit the length header and varints. -/
def opWf (op : List GoStr × Nat) : Prop :=
  op.2 < NoValue ∧ (∀ s ∈ op.1, s.length < 2 ^ 64) ∧
  (itemMarshal ⟨op.1, op.2⟩).length < 2 ^ 32

instance opWf.decidable (op : List GoStr × Nat) : Decidable (opWf op) := by
  unfold opWf
  infer_instance

theorem stInv_init : stInv initIdx [] := by
  refine ⟨rfl, rfl, rfl, ?_, ?_⟩ <;> simp

theorem putGo_shape_ok (st : IdxState) (f : List GoStr) (v : Nat) (t2 : Node)
    (h1 : (f.any fun x => x.isEmpty) = false)
    (h2 : oneWalk st.trie f = .error .noItem)
    (h3 : addNode st.trie ⟨f, v⟩ = some t2) :
    putGo false none st f v =
      ({ trie := t2, log := st.log ++ encodeRecord ⟨f, v⟩ }, .ok (),
        [.save ⟨f, v⟩, .addTrie ⟨f, v⟩]) := by
  simp [putGo, h1, h2, h3, encodeRecord]

theorem putGo_shape_err (st : IdxState) (f : List GoStr) (v : Nat)
    (h1 : (f.any fun x => x.isEmpty) = false)
    (h2 : oneWalk st.trie f ≠ .error .noItem) :
    putGo false none st f v = (st, .error .itemExists, []) := by
  rcases hone : oneWalk st.trie f with e | w
  · cases e <;> simp [putGo, h1, hone] <;> exact absurd hone h2
  · simp [putGo, h1, hone]

theorem putGo_shape_wild (st : IdxState) (f : List GoStr) (v : Nat)
    (h1 : (f.any fun x => x.isEmpty) = true) :
    putGo false none st f v = (st, .error .noWild, []) := by
  simp [putGo, h1]

theorem stInv_preserved_ok (st : IdxState) (saved : List Item) (f : List GoStr) (v : Nat)
    (t2 : Node) (hInv : stInv st saved) (hop : opWf (f, v))
    (h1 : (f.any fun x => x.isEmpty) = false)
    (h2 : oneWalk st.trie f = .error .noItem)
    (h3 : addNode st.trie ⟨f, v⟩ = some t2) :
    stInv { trie := t2, log := st.log ++ encodeRecord ⟨f, v⟩ } (saved ++ [⟨f, v⟩]) := by
  obtain ⟨hroot, hlog, hload, hwf, hone⟩ := hInv
  obtain ⟨hv, hs64, hm32⟩ := hop
  have hfne : f ≠ [] := by
    intro hfe
    rw [hfe] at h2
    simp [oneWalk, hroot, NoValue] at h2
  have hwild : ∀ s ∈ f, s ≠ [] := by
    intro s hs hse
    rw [List.any_eq_false] at h1
    have := h1 s hs
    simp [hse] at this
  have hvne : (⟨f, v⟩ : Item).value ≠ NoValue := by
    simp
    omega
  refine ⟨?_, ?_, ?_, ?_, ?_⟩
  · have := addAux_top_item ⟨f, v⟩ 0 f st.trie t2 h3
    simpa [hroot] using this
  · simp [hlog]
  · rw [loadTrie, List.foldlM_append]
    rw [loadTrie] at hload
    rw [hload]
    simp [h3]
  · intro it hit
    rcases List.mem_append.mp hit with hmem | hmem
    · exact hwf it hmem
    · simp at hmem
      subst hmem
      exact ⟨hfne, hwild, hv, hs64, hm32⟩
  · intro it hit
    rcases List.mem_append.mp hit with hmem | hmem
    · obtain ⟨w, hw, hwv⟩ := hone it hmem
      exact ⟨w, one_preserved ⟨f, v⟩ f 0 st.trie t2 it.fields w h3 h2 hw, hwv⟩
    · simp at hmem
      subst hmem
      exact one_after_add ⟨f, v⟩ f 0 st.trie t2 hfne hwild hvne h3

theorem runPuts_inv (ops : List (List GoStr × Nat)) :
    ∀ (st : IdxState) (saved : List Item), stInv st saved → (∀ op ∈ ops, opWf op) →
    stInv (runPutsAux st ops).1 (saved ++ (runPutsAux st ops).2) := by
  induction ops with
  | nil =>
    intro st saved hInv _
    simpa [runPutsAux] using hInv
  | cons op ops ih =>
    intro st saved hInv hops
    obtain ⟨f, v⟩ := op
    have hop : opWf (f, v) := hops _ (by simp)
    by_cases h1 : (f.any fun x => x.isEmpty) = true
    · rw [runPutsAux, putGo_shape_wild st f v h1]
      exact ih st saved hInv (fun o ho => hops o (by simp [ho]))
    · rw [Bool.not_eq_true] at h1
      by_cases h2 : oneWalk st.trie f = .error .noItem
      · obtain ⟨t2, h3⟩ : ∃ t2, addNode st.trie ⟨f, v⟩ = some t2 :=
          addAux_isSome ⟨f, v⟩ f 0 st.trie (by
            intro hfe
            rw [hfe] at h2
            simp [oneWalk, hInv.1, NoValue] at h2)
        rw [runPutsAux, putGo_shape_ok st f v t2 h1 h2 h3]
        have hInv2 := stInv_preserved_ok st saved f v t2 hInv hop h1 h2 h3
        have := ih _ (saved ++ [⟨f, v⟩]) hInv2 (fun o ho => hops o (by simp [ho]))
        simpa [List.append_assoc] using this
      · rw [runPutsAux, putGo_shape_err st f v h1 h2]
        exact ih st saved hInv (fun o ho => hops o (by simp [ho]))

instance exceptDecEq {e a : Type} [DecidableEq e] [DecidableEq a] :
    DecidableEq (Except e a) := fun x y =>
  match x, y with
  | .error u, .error v =>
    if h : u = v then isTrue (by rw [h]) else isFalse (by intro hh; cases hh; exact h rfl)
  | .ok u, .ok v =>
    if h : u = v then isTrue (by rw [h]) else isFalse (by intro hh; cases hh; exact h rfl)
  | .error _, .ok _ => isFalse (by intro hh; cases hh)
  | .ok _, .error _ => isFalse (by intro hh; cases hh)

/-- C3: the claim states that `index.Get` never performs an out-of-bounds access. It is
false on the code: with the item `["a","x","c"]` in the trie, the query `["", "x"]`
activates the post-filter, whose loop `for j := range item.Fields` evaluates `fields[j]`
at `j = 2` past the end of the two-element query — a runtime panic (`none` in the
model). -/
theorem indexGet_oob_panic :
    (loadTrie [⟨[[97], [120], [99]], 1⟩]).isSome = true ∧
    indexGet ((loadTrie [⟨[[97], [120], [99]], 1⟩]).getD rootNode) [[], [120]] = none := by
  decide

/-- C4: `index.Put` on a read-only index returns `ErrWrite` — the error whose message is
"number of bytes written doesn't match data size" — not `ErrROnly`, contradicting
`ErrROnly`'s own documentation; the index state is left unchanged. -/
theorem put_readOnly_returns_errWrite (st : IdxState) (fields : List GoStr) (value : Nat)
    (dErr : Option Err) :
    putGo true dErr st fields value = (st, .error .write, []) ∧ Err.write ≠ Err.ronly :=
  ⟨rfl, by decide⟩

/-- C7: the claim states that an item whose field arity is shorter than the greatest
post-filter depth is excluded. It is false on the code: with only the item `["a"]`
(value 5) in the trie, the query `["", "x"]` requires `item.fields[1] == "x"`, yet the
filter loop ranges over the item's own single field and never tests position 1, so the
item is returned (together with the root pseudo-item `Item{}` collected by `find`). -/
theorem indexGet_short_item_not_excluded :
    (loadTrie [⟨[[97]], 5⟩]).isSome = true ∧
    indexGet ((loadTrie [⟨[[97]], 5⟩]).getD rootNode) [[], [120]] =
      some [⟨[], 0⟩, ⟨[[97]], 5⟩] := by
  decide

/-- C10: `index.Put` is atomic with respect to the trie: when the on-disk append fails,
`Put` returns that error and neither the trie nor anything else in the state changes;
on the success path the save event strictly precedes the trie insertion (save-then-add),
and `Put` reports success. -/
theorem put_atomic (st : IdxState) (f : List GoStr) (v : Nat)
    (hne : f ≠ []) (hwild : ∀ s ∈ f, s ≠ [])
    (hmiss : oneWalk st.trie f = .error .noItem) :
    (∀ e : Err, putGo false (some e) st f v = (st, .error e, [])) ∧
    (putGo false none st f v).2.2 = [.save ⟨f, v⟩, .addTrie ⟨f, v⟩] ∧
    (putGo false none st f v).2.1 = .ok () := by
  have h1 : (f.any fun x => x.isEmpty) = false := by
    rw [List.any_eq_false]
    intro s hs
    simpa [List.isEmpty_iff] using hwild s hs
  refine ⟨?_, ?_, ?_⟩
  · intro e
    simp [putGo, h1, hmiss]
  · obtain ⟨t2, h3⟩ := addAux_isSome ⟨f, v⟩ f 0 st.trie hne
    rw [putGo_shape_ok st f v t2 h1 hmiss h3]
  · obtain ⟨t2, h3⟩ := addAux_isSome ⟨f, v⟩ f 0 st.trie hne
    rw [putGo_shape_ok st f v t2 h1 hmiss h3]

/-- Witness for `put_atomic` at the fresh index and `Put(["a"], 1)`. -/
theorem put_atomic_witness :
    (([[97]] : List GoStr) ≠ [] ∧ (∀ s ∈ [[97]], s ≠ ([] : GoStr)) ∧
      oneWalk initIdx.trie [[97]] = .error .noItem) ∧
    ((∀ e : Err, putGo false (some e) initIdx [[97]] 1 = (initIdx, .error e, [])) ∧
      (putGo false none initIdx [[97]] 1).2.2 = [.save ⟨[[97]], 1⟩, .addTrie ⟨[[97]], 1⟩] ∧
      (putGo false none initIdx [[97]] 1).2.1 = .ok ()) :=
  ⟨by decide, put_atomic initIdx [[97]] 1 (by decide) (by decide) (by decide)⟩

/-! ## The retention loop (`database.enforceRetention`, C5)

The loop body is `select { case <-db.closed: break; case <-time.Tick(...): ... }` inside
`for { ... }`. Per the Go specification, a `break` statement terminates the innermost
`for`, `switch` or `select` statement — here the `select`, not the `for`. -/

/-- Which `select` case fires in one iteration. After `close(db.closed)` the
`closedCh` case is always ready. -/
inductive RetChan where
  | closedCh
  | tickCh
deriving DecidableEq, Repr

/-- Outcome of executing a statement: normal completion, or a propagating `break`. -/
inductive StmtOutcome where
  | done
  | brk
deriving DecidableEq, Repr

/-- The body of the chosen `select` case in `enforceRetention`: the `<-db.closed` case
is a bare `break`; the tick case runs `db.expire()` and logging, completing normally. -/
def retentionCaseBody : RetChan → StmtOutcome
  | .closedCh => .brk
  | .tickCh => .done

/-- The whole `select` statement: a `break` inside a case is bound to the `select`
itself and terminates it, so the `select` completes normally either way. -/
def retentionSelect (c : RetChan) : StmtOutcome :=
  match retentionCaseBody c with
  | .brk => .done
  | .done => .done

/-- One iteration of the `for` loop of `enforceRetention`: `true` means the loop
continues with another iteration (its body completed normally); the loop would exit only
on a break bound to the `for` or a `return`, neither of which exists in the body. -/
def retentionIter (c : RetChan) : Bool :=
  match retentionSelect c with
  | .done => true
  | .brk => false

/-- Whether the retention worker is still looping after `n` iterations under the channel
schedule `sched` (e.g. `fun _ => .closedCh` once the close channel has been closed). -/
def retentionRuns (sched : Nat → RetChan) : Nat → Bool
  | 0 => true
  | n + 1 => retentionRuns sched n && retentionIter (sched n)

/-- C5: the claim states that the retention loop returns once the close channel is
signaled. It is false on the code: the `break` in the `<-db.closed` case terminates the
`select`, not the `for`, so the worker keeps looping after arbitrarily many iterations
under every schedule — in particular under the schedule where the closed channel fires
every time. -/
theorem enforceRetention_never_exits (sched : Nat → RetChan) (n : Nat) :
    retentionRuns sched n = true ∧ retentionIter .closedCh = true := by
  constructor
  · induction n with
    | zero => rfl
    | succ k ih =>
      rw [retentionRuns, ih]
      cases sched k <;> rfl
  · rfl

/-! ## Database metadata and epoch admission (`database.getEpoch`, C8) -/

/-- The persisted `Metadata` fields used by the orchestrator logic (`part_001`). -/
structure Meta where
  resolution : Int
  retention : Int
  duration : Int
  payloadSize : Nat
  segmentSize : Nat
  maxROEpochs : Nat
  maxRWEpochs : Nat

/-- Which cache/mode `getEpoch` uses: read-only (RO cache) or read-write (RW cache). -/
inductive EpochMode where
  | ro
  | rw
deriving DecidableEq, Repr

/-- Admission decision of `database.getEpoch`: floor `ts` and `now` to the epoch
duration; `min = now − int64(uint32(MaxRWEpochs−1)) × duration` (the `uint32` subtraction
wraps modulo `2 ^ 32`), `max = now + duration`; timestamps at or beyond `max` are
`ErrFuture`; older than `min` uses a read-only epoch, otherwise read-write; the recovery
flag forces read-write for every admitted epoch. -/
def getEpochMode (md : Meta) (recovery : Bool) (now ts : Int) : Except Err EpochMode :=
  let tsF := ts - ts.tmod md.duration
  let nowF := now - now.tmod md.duration
  let minTs := nowF - (((md.maxRWEpochs + 2 ^ 32 - 1) % 2 ^ 32 : Nat) : Int) * md.duration
  let maxTs := nowF + md.duration
  if tsF ≥ maxTs then .error .future
  else
    let ro := decide (tsF < minTs)
    let ro := if recovery then false else ro
    .ok (if ro then .ro else .rw)

/-- C8: epoch admission trichotomy. With `now` and `ts` floored to the duration,
`min = now − (max_rw_epochs − 1) × duration` and `max = now + duration`: a floored
timestamp at or beyond `max` fails with `Future`; below `min` (without recovery) the
epoch is served read-only from the RO cache; from `min` up it is served read-write; and
with the recovery flag set every admitted epoch is read-write regardless of age. -/
theorem epoch_admission (md : Meta) (recovery : Bool) (now ts : Int)
    (h1 : 1 ≤ md.maxRWEpochs) (h2 : md.maxRWEpochs < 2 ^ 32) :
    (ts - ts.tmod md.duration ≥ (now - now.tmod md.duration) + md.duration →
      getEpochMode md recovery now ts = .error .future) ∧
    (ts - ts.tmod md.duration < (now - now.tmod md.duration) + md.duration →
      ts - ts.tmod md.duration <
        (now - now.tmod md.duration) - ((md.maxRWEpochs : Int) - 1) * md.duration →
      recovery = false → getEpochMode md recovery now ts = .ok .ro) ∧
    (ts - ts.tmod md.duration < (now - now.tmod md.duration) + md.duration →
      (now - now.tmod md.duration) - ((md.maxRWEpochs : Int) - 1) * md.duration ≤
        ts - ts.tmod md.duration →
      getEpochMode md recovery now ts = .ok .rw) ∧
    (ts - ts.tmod md.duration < (now - now.tmod md.duration) + md.duration →
      recovery = true → getEpochMode md recovery now ts = .ok .rw) := by
  have hsub : (((md.maxRWEpochs + 2 ^ 32 - 1) % 2 ^ 32 : Nat) : Int) =
      (md.maxRWEpochs : Int) - 1 := by
    have hmod : (md.maxRWEpochs + 2 ^ 32 - 1) % 2 ^ 32 = md.maxRWEpochs - 1 := by
      omega
    rw [hmod]
    omega
  refine ⟨?_, ?_, ?_, ?_⟩
  · intro hge
    simp only [getEpochMode]
    rw [if_pos hge]
  · intro hlt hmin hrec
    subst hrec
    simp only [getEpochMode, hsub]
    rw [if_neg (not_le.mpr hlt)]
    simp [hmin]
  · intro hlt hmin
    have hnc : ¬ (ts - ts.tmod md.duration <
        (now - now.tmod md.duration) - ((md.maxRWEpochs : Int) - 1) * md.duration) :=
      not_lt.mpr hmin
    cases recovery
    · simp only [getEpochMode, hsub]
      rw [if_neg (not_le.mpr hlt)]
      simp [hnc]
    · simp only [getEpochMode, hsub]
      rw [if_neg (not_le.mpr hlt)]
      simp
  · intro hlt hrec
    subst hrec
    simp only [getEpochMode]
    rw [if_neg (not_le.mpr hlt)]
    simp

/-- Witness for `epoch_admission` with `duration = 10`, `max_rw_epochs = 4`,
`now = 100`: `min = 70`, `max = 110`; `ts = 110` is `Future`, `ts = 65` is RO,
`ts = 75` is RW, and with recovery `ts = 65` is RW. -/
theorem epoch_admission_witness :
    (1 ≤ 4 ∧ 4 < 2 ^ 32) ∧
    getEpochMode ⟨1, 0, 10, 8, 100, 4, 4⟩ false 100 110 = .error .future ∧
    getEpochMode ⟨1, 0, 10, 8, 100, 4, 4⟩ false 100 65 = .ok .ro ∧
    getEpochMode ⟨1, 0, 10, 8, 100, 4, 4⟩ false 100 75 = .ok .rw ∧
    getEpochMode ⟨1, 0, 10, 8, 100, 4, 4⟩ true 100 65 = .ok .rw := by
  refine ⟨by decide, ?_, ?_, ?_, ?_⟩
  · exact (epoch_admission ⟨1, 0, 10, 8, 100, 4, 4⟩ false 100 110 (by decide)
      (by decide)).1 (by decide)
  · exact ((epoch_admission ⟨1, 0, 10, 8, 100, 4, 4⟩ false 100 65 (by decide)
      (by decide)).2.1) (by decide) (by decide) rfl
  · exact ((epoch_admission ⟨1, 0, 10, 8, 100, 4, 4⟩ false 100 75 (by decide)
      (by decide)).2.2.1) (by decide) (by decide)
  · exact ((epoch_admission ⟨1, 0, 10, 8, 100, 4, 4⟩ true 100 65 (by decide)
      (by decide)).2.2.2) (by decide) rfl

/-! ## Database range reads (`database.One` and `database.Get`)

The epoch façade (`epoch.go`) is not under `src/`; epoch query results are modelled from
the spec (§4.3): an abstract world maps an epoch start timestamp to an opened epoch
handle (`none` models an epoch that fails to open or query and is skipped by the read
loop). Time values are `int64` (`Int`); the loop over epoch timestamps is fuel-bounded,
with fuel `(epoLast − epoFirst) + 1`, which exceeds the iteration count whenever the
duration is positive. -/

/-- Modelled from the spec: `epoch.One` (the epoch façade is not under `src/`) —
"returns an ordered sequence of `end_pos − start_pos` payloads" (§4.3), with missing
points represented as all-zero payloads of `payload_size` bytes (§3). The handle `e`
gives the stored payload of the request's field-set at each intra-epoch position. -/
def epoOne (psize : Nat) (e : Nat → Option (List Nat)) (startPos endPos : Nat) :
    List (List Nat) :=
  (List.range' startPos (endPos - startPos)).map fun p =>
    (e p).getD (List.replicate psize 0)

/-- `database.getEpoch` as seen by a range read: floor `ts` to the duration, fail
(`none`, epoch skipped) at or beyond the admission horizon `now + duration`, otherwise
consult the world (which may itself fail to open). The RO/RW mode choice does not affect
the payloads a read observes. -/
def getEpochR {α : Type} (dur now : Int) (world : Int → Option α) (ts : Int) : Option α :=
  let tsF := ts - ts.tmod dur
  let nowF := now - now.tmod dur
  if tsF ≥ nowF + dur then none else world tsF

/-- `copy(out[pos:pos+len(vals)], vals)`: overwrite the window of `out` starting at
`pos` with `vals`, leaving length and all other entries unchanged (the windows produced
by the read loops always fit inside `out`). -/
def splice {β : Type} (out : List β) (pos : Nat) (vals : List β) : List β :=
  (out.take pos ++ vals ++ out.drop (pos + vals.length)).take out.length

/-- The epoch loop of `database.One` (`for ts := epoFirst; ts <= epoLast; ts += dur`),
fuel-bounded: fetch the epoch (skip on failure), trim the window to the request, query,
and splice the payloads into the output at `recStart = (trmStart − start) / res`.
`startPos`/`endPos` pass through `uint32` conversions as in the source. -/
def dbOneLoop (md : Meta) (world : Int → Option (Nat → Option (List Nat)))
    (now startT endT epoFirst epoLast : Int) :
    Nat → Int → List (Option (List Nat)) → List (Option (List Nat))
  | 0, _, out => out
  | fuel + 1, ts, out =>
    if ts ≤ epoLast then
      let out2 :=
        match getEpochR md.duration now world ts with
        | none => out
        | some e =>
          let trmStart := if ts = epoFirst then startT else ts
          let trmEnd := if ts = epoLast then endT else ts + md.duration
          let numPoints := (trmEnd - trmStart).tdiv md.resolution
          let startPos := ((trmStart.tmod md.duration).tdiv md.resolution).toNat % 2 ^ 32
          let endPos := (startPos + numPoints.toNat % 2 ^ 32) % 2 ^ 32
          let result := epoOne md.payloadSize e startPos endPos
          let recStart := ((trmStart - startT).tdiv md.resolution).toNat
          splice out recStart (result.map some)
      dbOneLoop md world now startT endT epoFirst epoLast fuel (ts + md.duration) out2
    else out

/-- `database.One`: floor both endpoints to the resolution, reject empty ranges with
`ErrRange`, allocate `pcount` nil slots (`make([][]byte, pcount)` yields nil `[]byte`
entries), and run the epoch loop. -/
def dbOne (md : Meta) (world : Int → Option (Nat → Option (List Nat)))
    (now start0 end0 : Int) : Except Err (List (Option (List Nat))) :=
  let res := md.resolution
  let dur := md.duration
  let startT := start0 - start0.tmod res
  let endT := end0 - end0.tmod res
  if endT ≤ startT then .error .range
  else
    let epoFirst := startT - startT.tmod dur
    let epoLast := endT - endT.tmod dur
    let pcount := ((endT - startT).tdiv res).toNat
    .ok (dbOneLoop md world now startT endT epoFirst epoLast
      ((epoLast - epoFirst).toNat + 1) epoFirst (List.replicate pcount none))

/-- Generic association-list read, for the `map[string]...` accumulators of
`database.Get`. -/
def lookupA {β : Type} : List (GoStr × β) → GoStr → Option β
  | [], _ => none
  | (k, x) :: rest, f => if k = f then some x else lookupA rest f

/-- Generic association-list write (`m[k] = x`). -/
def setA {β : Type} : List (GoStr × β) → GoStr → β → List (GoStr × β)
  | [], f, x => [(f, x)]
  | (k, y) :: rest, f, x => if k = f then (k, x) :: rest else (k, y) :: setA rest f x

/-- `strings.Join(item.Fields, "-")` — the accumulator key of `database.Get`
(`-` is byte 45). -/
def joinDash (fs : List GoStr) : GoStr := List.intercalate [45] fs

/-- The epoch loop of `database.Get`: per epoch, fetch the wildcard result (spec-modelled
`epoch.Get`: a list of items with their `end_pos − start_pos` payload sequences), and for
each item accumulate into `tmpPoints`/`tmpFields` keyed by `strings.Join(fields, "-")`;
a first-seen key allocates a `pcount`-long zero-payload buffer. -/
def dbGetLoop (md : Meta) (world : Int → Option (List (Item × List (List Nat))))
    (now startT endT epoFirst epoLast : Int) (pcount : Nat) :
    Nat → Int → List (GoStr × List (List Nat)) → List (GoStr × List GoStr) →
    List (GoStr × List (List Nat)) × List (GoStr × List GoStr)
  | 0, _, tmpPoints, tmpFields => (tmpPoints, tmpFields)
  | fuel + 1, ts, tmpPoints, tmpFields =>
    if ts ≤ epoLast then
      match getEpochR md.duration now world ts with
      | none =>
        dbGetLoop md world now startT endT epoFirst epoLast pcount fuel
          (ts + md.duration) tmpPoints tmpFields
      | some result =>
        let trmStart := if ts = epoFirst then startT else ts
        let recStart := ((trmStart - startT).tdiv md.resolution).toNat
        let upd := result.foldl
          (fun (acc : List (GoStr × List (List Nat)) × List (GoStr × List GoStr)) ip =>
            let key := joinDash ip.1.fields
            match lookupA acc.1 key with
            | some set => (setA acc.1 key (splice set recStart ip.2), acc.2)
            | none =>
              let set := List.replicate pcount (List.replicate md.payloadSize 0)
              (setA acc.1 key (splice set recStart ip.2), setA acc.2 key ip.1.fields))
          (tmpPoints, tmpFields)
        dbGetLoop md world now startT endT epoFirst epoLast pcount fuel
          (ts + md.duration) upd.1 upd.2
    else (tmpPoints, tmpFields)

/-- `database.Get`: floor, validate the range, run the accumulation loop, and rebuild
the output mapping one entry per accumulator key, with `&index.Item{Fields: fields}`
(zero value) as the canonical item. -/
def dbGet (md : Meta) (world : Int → Option (List (Item × List (List Nat))))
    (now start0 end0 : Int) : Except Err (List (Item × List (List Nat))) :=
  let res := md.resolution
  let dur := md.duration
  let startT := start0 - start0.tmod res
  let endT := end0 - end0.tmod res
  if endT ≤ startT then .error .range
  else
    let epoFirst := startT - startT.tmod dur
    let epoLast := endT - endT.tmod dur
    let pcount := ((endT - startT).tdiv res).toNat
    let acc := dbGetLoop md world now startT endT epoFirst epoLast pcount
      ((epoLast - epoFirst).toNat + 1) epoFirst [] []
    .ok (acc.2.map fun kf => (⟨kf.2, 0⟩, (lookupA acc.1 kf.1).getD []))

/-- The trimmed window start of a range-read epoch iteration (`trmStart`): the floored
query start for the first epoch, the epoch start otherwise. -/
def trmS (md : Meta) (S ts : Int) : Int :=
  if ts = S - S % md.duration then S else ts

/-- The trimmed window end (`trmEnd`): the floored query end for the last epoch, the
next epoch start otherwise. -/
def trmE (md : Meta) (E ts : Int) : Int :=
  if ts = E - E % md.duration then E else ts + md.duration

/-- Number of points in the trimmed window of epoch `ts` (`endPos - startPos`). -/
def winLen (md : Meta) (S E ts : Int) : Nat :=
  ((trmE md E ts - trmS md S ts) / md.resolution).toNat

/-- Output position at which epoch `ts`'s window lands (`recStart`). -/
def recStartN (md : Meta) (S ts : Int) : Nat :=
  ((trmS md S ts - S).tdiv md.resolution).toNat

/-- Modelled from the spec: the contract of the epoch read used by `database.Get`
(`epoch.Get(startPos, endPos, fields)` returns exactly `endPos - startPos` payload
sequences per item, §4.3): each item of an epoch that opens carries one payload per
point of the trimmed window requested from it. -/
def epochContract (md : Meta) (world : Int → Option (List (Item × List (List Nat))))
    (now S E : Int) : Prop :=
  ∀ ts r, S - S % md.duration ≤ ts → ts ≤ E - E % md.duration → md.duration ∣ ts →
    getEpochR md.duration now world ts = some r →
    ∀ ip ∈ r, ip.2.length = winLen md S E ts

/-- Provenance of an accumulator slot of `database.Get`: some epoch of the queried
range opened and its wildcard result contains an item with this key whose payload
sequence supplies position `j`. -/
def contribAt (md : Meta) (world : Int → Option (List (Item × List (List Nat))))
    (now S E : Int) (k : GoStr) (j : Nat) (v : List Nat) : Prop :=
  ∃ ts r ip, S - S % md.duration ≤ ts ∧ ts ≤ E - E % md.duration ∧ md.duration ∣ ts ∧
    getEpochR md.duration now world ts = some r ∧ ip ∈ r ∧
    joinDash ip.1.fields = k ∧ recStartN md S ts ≤ j ∧
    ip.2[j - recStartN md S ts]? = some v

/-- Invariant of the `tmpPoints` accumulators: every buffer spans the full `pcount`
range and every slot is either the zero payload it was initialised with or was written
from an epoch contribution for its key. -/
def accInv (md : Meta) (world : Int → Option (List (Item × List (List Nat))))
    (now S E : Int) (P : Nat) (tmpP : List (GoStr × List (List Nat))) : Prop :=
  ∀ kb ∈ tmpP, kb.2.length = P ∧ ∀ j v, kb.2[j]? = some v →
    v = List.replicate md.payloadSize 0 ∨ contribAt md world now S E kb.1 j v

/-- Invariant of the `tmpFields` map: every key is the dash-join of its fields tuple
and has a `tmpPoints` buffer (both maps are always written together). -/
def fldInv (tmpP : List (GoStr × List (List Nat)))
    (tmpF : List (GoStr × List GoStr)) : Prop :=
  ∀ kf ∈ tmpF, kf.1 = joinDash kf.2 ∧ ∃ buf, lookupA tmpP kf.1 = some buf

/-- One item step of the accumulation fold of `database.Get` (the body of
`for item, points := range result`), with the write position `p` abstracted. -/
def getStep (md : Meta) (P p : Nat)
    (acc : List (GoStr × List (List Nat)) × List (GoStr × List GoStr))
    (ip : Item × List (List Nat)) :
    List (GoStr × List (List Nat)) × List (GoStr × List GoStr) :=
  match lookupA acc.1 (joinDash ip.1.fields) with
  | some set => (setA acc.1 (joinDash ip.1.fields) (splice set p ip.2), acc.2)
  | none =>
    (setA acc.1 (joinDash ip.1.fields)
      (splice (List.replicate P (List.replicate md.payloadSize 0)) p ip.2),
     setA acc.2 (joinDash ip.1.fields) ip.1.fields)

theorem mem_setA {β : Type} (l : List (GoStr × β)) (k : GoStr) (x : β) :
    ∀ kb ∈ setA l k x, kb = (k, x) ∨ kb ∈ l := by
  induction l with
  | nil =>
    intro kb h
    simp only [setA, List.mem_singleton] at h
    exact Or.inl h
  | cons p rest ih =>
    intro kb h
    obtain ⟨pk, py⟩ := p
    simp only [setA] at h
    by_cases he : pk = k
    · rw [if_pos he] at h
      rcases List.mem_cons.mp h with h1 | h1
      · left
        rw [h1, he]
      · right
        exact List.mem_cons_of_mem _ h1
    · rw [if_neg he] at h
      rcases List.mem_cons.mp h with h1 | h1
      · right
        rw [h1]
        exact List.mem_cons_self _ _
      · rcases ih kb h1 with h2 | h2
        · left
          exact h2
        · right
          exact List.mem_cons_of_mem _ h2

theorem lookupA_mem {β : Type} (l : List (GoStr × β)) (f : GoStr) (x : β)
    (h : lookupA l f = some x) : (f, x) ∈ l := by
  induction l with
  | nil => simp [lookupA] at h
  | cons p rest ih =>
    obtain ⟨pk, py⟩ := p
    simp only [lookupA] at h
    by_cases he : pk = f
    · rw [if_pos he] at h
      simp at h
      simp [he, h]
    · rw [if_neg he] at h
      exact List.mem_cons_of_mem _ (ih h)

theorem lookup_setA {β : Type} (l : List (GoStr × β)) (k f : GoStr) (x : β) :
    lookupA (setA l k x) f = if f = k then some x else lookupA l f := by
  induction l with
  | nil =>
    simp only [setA, lookupA]
    by_cases he : f = k
    · subst he
      simp
    · rw [if_neg (fun hc : k = f => he hc.symm), if_neg he]
  | cons p rest ih =>
    obtain ⟨pk, py⟩ := p
    simp only [setA]
    by_cases he : pk = k
    · subst he
      rw [if_pos rfl]
      simp only [lookupA]
      by_cases hf : pk = f
      · subst hf
        rw [if_pos rfl, if_pos rfl]
      · rw [if_neg hf, if_neg (fun hc : f = pk => hf hc.symm), if_neg hf]
    · rw [if_neg he]
      simp only [lookupA]
      by_cases hf : pk = f
      · rw [if_pos hf, if_neg (fun hc => he (hf.trans hc)), if_pos hf]
      · simp only [if_neg hf]
        rw [ih]

/-- Concrete metadata for the `database.Get` collision scenario: resolution 1,
duration 10, payload size 1. -/
def mdC2 : Meta := ⟨1, 100, 10, 1, 100, 4, 4⟩

/-- World for the collision scenario: epoch 0 holds the two distinct field tuples
`["a-b"]` and `["a","b"]` with distinguishable payloads. -/
def worldC2 : Int → Option (List (Item × List (List Nat))) := fun ts =>
  if ts = 0 then
    some [(⟨[[97, 45, 98]], 7⟩, [[1], [3]]), (⟨[[97], [98]], 8⟩, [[2], [4]])]
  else none

/-- C2: the claim states that two distinct field tuples never share one accumulator.
It is false on the code: `database.Get` keys accumulators by
`strings.Join(item.Fields, "-")`, so the distinct tuples `["a-b"]` and `["a","b"]` both
key as `"a-b"` and alias one buffer — the read returns a single entry whose payloads are
those of the second tuple, instead of two entries. (The source itself carries a TODO:
"use a better way to identify fieldsets / on rare occassions can cause incorect
result".) -/
theorem dbGet_key_collision :
    dbGet mdC2 worldC2 0 0 2 = .ok [(⟨[[97, 45, 98]], 0⟩, [[2], [4]])] ∧
    (⟨[[97, 45, 98]], 7⟩ : Item) ≠ ⟨[[97], [98]], 8⟩ := by
  decide

/-- Concrete metadata for the `database.One` nil-slot scenario: resolution 1,
duration 10, payload size 2. -/
def mdC1 : Meta := ⟨1, 100, 10, 2, 100, 4, 4⟩

/-- World for the nil-slot scenario: epoch 0 opens (with no stored points); every other
epoch fails to open or is in the future. -/
def worldC1 : Int → Option (Nat → Option (List Nat)) := fun ts =>
  if ts = 0 then some (fun _ => none) else none

/-- Counterexample for C1 as stated: the successful read `One(0, 20)` at `now = 0`
(epoch 10 is in the future and skipped) leaves output positions 10–19 as nil entries,
not as all-zero payloads of `payload_size = 2` bytes. -/
theorem dbOne_nil_slot_counterexample :
    dbOne mdC1 worldC1 0 0 20 =
      .ok (List.replicate 10 (some [0, 0]) ++ List.replicate 10 none) ∧
    (List.replicate 10 (some ([0, 0] : List Nat)) ++ List.replicate 10 none).getD 10
        (some []) = none ∧
    (none : Option (List Nat)) ≠ some (List.replicate 2 0) := by
  decide

/-! ## Arithmetic and splice helper lemmas for the `database.One` characterization -/

theorem splice_length {β : Type} (out : List β) (p : Nat) (vals : List β)
    (h : p + vals.length ≤ out.length) : (splice out p vals).length = out.length := by
  simp [splice, List.length_take, List.length_append, List.length_drop]
  omega

theorem splice_getElem? {β : Type} (out : List β) (p : Nat) (vals : List β) (j : Nat)
    (h : p + vals.length ≤ out.length) :
    (splice out p vals)[j]? =
      if j < p then out[j]?
      else if j < p + vals.length then vals[j - p]? else out[j]? := by
  unfold splice
  have hlt : (out.take p).length = p := by
    simp [List.length_take]
    omega
  have hlt2 : (out.take p ++ vals).length = p + vals.length := by
    simp [List.length_append, hlt]
  by_cases h1 : j < p
  · rw [List.getElem?_take_of_lt (by omega), List.getElem?_append_left (by omega),
      List.getElem?_append_left (by omega), List.getElem?_take_of_lt h1, if_pos h1]
  · by_cases h2 : j < p + vals.length
    · rw [List.getElem?_take_of_lt (by omega), List.getElem?_append_left (by omega),
        List.getElem?_append_right (by omega), if_neg h1, if_pos h2, hlt]
    · rw [if_neg h1, if_neg h2]
      by_cases h3 : j < out.length
      · rw [List.getElem?_take_of_lt h3, List.getElem?_append_right (by omega),
          List.getElem?_drop, hlt2]
        congr 1
        omega
      · rw [List.getElem?_eq_none (by simp [List.length_take]; omega),
          List.getElem?_eq_none (by omega)]

theorem epoOne_map_getElem? (psize : Nat) (e : Nat → Option (List Nat)) (a n k : Nat)
    (hk : k < n) :
    ((epoOne psize e a (a + n)).map some)[k]? =
      some (some ((e (a + k)).getD (List.replicate psize 0))) := by
  unfold epoOne
  have hn : a + n - a = n := by omega
  rw [hn, List.getElem?_map, List.getElem?_map, List.getElem?_range' a 1 hk]
  simp

/-- For `0 < d` and `d ∣ ts`, every `t` in `[ts, ts + d)` floors to `ts`. -/
theorem int_floor_eq (d ts t : Int) (hd : 0 < d) (hts : d ∣ ts) (h1 : ts ≤ t)
    (h2 : t < ts + d) : t - t % d = ts := by
  obtain ⟨k, rfl⟩ := hts
  have hr : t % d = t - d * k := by
    have ht : t = (t - d * k) + k * d := by ring
    conv_lhs => rw [ht]
    rw [Int.add_mul_emod_self]
    exact @Int.emod_eq_of_lt (t - d * k) d (by omega) (by omega)
  omega

/-- Floor to a positive multiple is monotone. -/
theorem int_floor_mono (d : Int) (hd : 0 < d) {a b : Int} (h : a ≤ b) :
    a - a % d ≤ b - b % d := by
  have ha := Int.emod_def a d
  have hb := Int.emod_def b d
  have hdiv := Int.ediv_le_ediv hd h
  have h2 : d * (a / d) ≤ d * (b / d) := by
    exact mul_le_mul_of_nonneg_left hdiv (by omega)
  omega

/-- The floor is divisible by the modulus. -/
theorem int_floor_dvd (d t : Int) : d ∣ (t - t % d) := by
  have := Int.emod_def t d
  exact ⟨t / d, by omega⟩

theorem int_emod_nonneg_lt (d t : Int) (hd : 0 < d) : 0 ≤ t % d ∧ t % d < d :=
  ⟨Int.emod_nonneg t (by omega), Int.emod_lt_of_pos t hd⟩

/-- The value of output position `j` of a successful `database.One` read whose floored
start time is `S`: `none` (a nil slice) when the position's epoch is skipped — in the
future or failing to open — and otherwise the epoch's payload at the corresponding
intra-epoch position, which is an all-zero payload of `payloadSize` bytes when the epoch
stores nothing there. -/
def dbOneSlot (md : Meta) (world : Int → Option (Nat → Option (List Nat)))
    (now S : Int) (j : Nat) : Option (List Nat) :=
  let t := S + j * md.resolution
  let e := t - t.tmod md.duration
  match getEpochR md.duration now world e with
  | none => none
  | some ep =>
    some ((ep ((t - e).tdiv md.resolution).toNat).getD (List.replicate md.payloadSize 0))

/-- A positive divisor `d` with `d ∣ a - b` and `b ≤ a < b + d` forces `a = b`. -/
theorem int_eq_of_dvd_near (d a b : Int) (hd : 0 < d) (hdvd : d ∣ (a - b)) (h1 : b ≤ a)
    (h2 : a < b + d) : a = b := by
  obtain ⟨c, hc⟩ := hdvd
  have hc0 : c = 0 := by
    by_contra hne
    rcases lt_or_gt_of_ne hne with hlt | hgt
    · have : d * c ≤ d * (-1) := mul_le_mul_of_nonneg_left (by omega) (by omega)
      omega
    · have : d * 1 ≤ d * c := mul_le_mul_of_nonneg_left (by omega) (by omega)
      omega
  subst hc0
  simp at hc
  omega

/-- Multiples of `d` strictly above a multiple of `d` are at least `d` above it. -/
theorem int_dvd_le_of_lt (d a b : Int) (hd : 0 < d) (hdvd : d ∣ (a - b)) (h1 : b < a) :
    b + d ≤ a := by
  by_contra hcon
  have := int_eq_of_dvd_near d a b hd hdvd (by omega) (by omega)
  omega

/-- Trim arithmetic for one epoch of a range read: the trimmed window starts at or
after the floored query start, is well ordered, its start offset divides evenly, and
offset plus window length stay within the `pcount` output range. -/
theorem trim_fit (md : Meta) (S E ts : Int) (P : Nat)
    (hres : 0 < md.resolution) (hdur : 0 < md.duration)
    (hdvd : md.resolution ∣ md.duration)
    (hSE : S < E) (hresS : md.resolution ∣ S) (hresE : md.resolution ∣ E)
    (hP : E - S = P * md.resolution)
    (h1 : S - S % md.duration ≤ ts) (h2 : md.duration ∣ ts)
    (hle : ts ≤ E - E % md.duration) :
    S ≤ trmS md S ts ∧ trmS md S ts ≤ trmE md E ts ∧
    (trmS md S ts - S).tdiv md.resolution = (trmS md S ts - S) / md.resolution ∧
    recStartN md S ts + winLen md S E ts ≤ P := by
  have hmodS := int_emod_nonneg_lt md.duration S hdur
  have hmodE := int_emod_nonneg_lt md.duration E hdur
  simp only [trmS, trmE, winLen, recStartN]
  set tS := if ts = S - S % md.duration then S else ts with htSdef
  set tE := if ts = E - E % md.duration then E else ts + md.duration with htEdef
  have htS_cases : tS = S ∨ tS = ts := by
    rw [htSdef]
    split <;> simp
  have htE_cases : tE = E ∨ tE = ts + md.duration := by
    rw [htEdef]
    split <;> simp
  have hF1 : ts ≤ tS := by
    rw [htSdef]
    split
    · omega
    · omega
  have hF6 : S ≤ tS := by
    rw [htSdef]
    split
    · omega
    · rename_i hc
      have hlt2 : S - S % md.duration < ts := lt_of_le_of_ne h1 (Ne.symm hc)
      have := int_dvd_le_of_lt md.duration ts (S - S % md.duration) hdur
        (dvd_sub h2 (int_floor_dvd md.duration S)) hlt2
      omega
  have hF5 : tE ≤ E := by
    rw [htEdef]
    split
    · omega
    · rename_i hc
      have hlt2 : ts < E - E % md.duration := lt_of_le_of_ne hle hc
      have := int_dvd_le_of_lt md.duration (E - E % md.duration) ts hdur
        (dvd_sub (int_floor_dvd md.duration E) h2) hlt2
      omega
  have hF3 : tS ≤ tE := by
    rcases htS_cases with h | h <;> rcases htE_cases with h' | h' <;> omega
  have hrdvd_tS : md.resolution ∣ tS := by
    rcases htS_cases with h | h
    · rw [h]
      exact hresS
    · rw [h]
      exact dvd_trans hdvd h2
  have hrdvd_tE : md.resolution ∣ tE := by
    rcases htE_cases with h | h
    · rw [h]
      exact hresE
    · rw [h]
      exact dvd_add (dvd_trans hdvd h2) hdvd
  have hRSnn : 0 ≤ (tS - S) / md.resolution :=
    Int.ediv_nonneg (by omega) (by omega)
  have hNPnn : 0 ≤ (tE - tS) / md.resolution :=
    Int.ediv_nonneg (by omega) (by omega)
  have hRS : (((tS - S) / md.resolution).toNat : Int) * md.resolution = tS - S := by
    rw [Int.toNat_of_nonneg hRSnn]
    exact Int.ediv_mul_cancel (dvd_sub hrdvd_tS hresS)
  have hNP : (((tE - tS) / md.resolution).toNat : Int) * md.resolution = tE - tS := by
    rw [Int.toNat_of_nonneg hNPnn]
    exact Int.ediv_mul_cancel (dvd_sub hrdvd_tE hrdvd_tS)
  have hPQ : (P : Int) * md.resolution = E - S := by omega
  have htdivRS : (tS - S).tdiv md.resolution = (tS - S) / md.resolution :=
    Int.tdiv_eq_ediv (by omega) (by omega)
  have hRSNP : ((tS - S) / md.resolution).toNat +
      ((tE - tS) / md.resolution).toNat ≤ P := by
    have hsum2 : ((((tS - S) / md.resolution).toNat +
        ((tE - tS) / md.resolution).toNat : Nat) : Int) * md.resolution =
        tE - S := by
      push_cast
      rw [add_mul]
      omega
    have hmul2 : ((((tS - S) / md.resolution).toNat +
        ((tE - tS) / md.resolution).toNat : Nat) : Int) * md.resolution ≤
        (P : Int) * md.resolution := by
      omega
    have := le_of_mul_le_mul_right hmul2 hres
    exact_mod_cast this
  refine ⟨hF6, hF3, htdivRS, ?_⟩
  rw [htdivRS]
  exact hRSNP

/-- The accumulation fold of one epoch of `database.Get` preserves the accumulator
invariants: buffers keep length `pcount`, slots are zero payloads or epoch
contributions, and the fields map stays in step with the points map. -/
theorem dbGetFold_inv (md : Meta) (world : Int → Option (List (Item × List (List Nat))))
    (now S E : Int) (P p : Nat) (r : List (Item × List (List Nat)))
    (hfit : ∀ ip ∈ r, p + ip.2.length ≤ P)
    (hprov : ∀ ip ∈ r, ∀ i v, ip.2[i]? = some v →
      contribAt md world now S E (joinDash ip.1.fields) (p + i) v) :
    ∀ (ips : List (Item × List (List Nat)))
      (acc : List (GoStr × List (List Nat)) × List (GoStr × List GoStr)),
      (∀ ip ∈ ips, ip ∈ r) →
      accInv md world now S E P acc.1 →
      fldInv acc.1 acc.2 →
      accInv md world now S E P (ips.foldl (getStep md P p) acc).1 ∧
      fldInv (ips.foldl (getStep md P p) acc).1 (ips.foldl (getStep md P p) acc).2 := by
  intro ips
  induction ips with
  | nil =>
    intro acc _ hPinv hFinv
    simpa using ⟨hPinv, hFinv⟩
  | cons ip ips ih =>
    intro acc hsub hPinv hFinv
    have hipr : ip ∈ r := hsub ip (by simp)
    have hfit1 := hfit ip hipr
    have hprov1 := hprov ip hipr
    simp only [List.foldl_cons]
    cases hlk : lookupA acc.1 (joinDash ip.1.fields) with
    | some set =>
      have hstep : getStep md P p acc ip =
          (setA acc.1 (joinDash ip.1.fields) (splice set p ip.2), acc.2) := by
        simp [getStep, hlk]
      rw [hstep]
      have hmemset : (joinDash ip.1.fields, set) ∈ acc.1 := lookupA_mem _ _ _ hlk
      obtain ⟨hslen, hsinv⟩ := hPinv _ hmemset
      have hfit2 : p + ip.2.length ≤ set.length := by
        rw [hslen]
        exact hfit1
      apply ih
      · exact fun q hq => hsub q (List.mem_cons_of_mem _ hq)
      · intro kb hkb
        rcases mem_setA _ _ _ kb hkb with heq | hmem
        · subst heq
          constructor
          · dsimp only
            rw [splice_length _ _ _ hfit2]
            exact hslen
          · dsimp only
            intro j v hjv
            rw [splice_getElem? _ _ _ _ hfit2] at hjv
            by_cases hj1 : j < p
            · rw [if_pos hj1] at hjv
              exact hsinv j v hjv
            · rw [if_neg hj1] at hjv
              by_cases hj2 : j < p + ip.2.length
              · rw [if_pos hj2] at hjv
                right
                have hc := hprov1 (j - p) v hjv
                have he2 : p + (j - p) = j := by omega
                rw [he2] at hc
                exact hc
              · rw [if_neg hj2] at hjv
                exact hsinv j v hjv
        · exact hPinv kb hmem
      · intro kf hkf
        refine ⟨(hFinv kf hkf).1, ?_⟩
        dsimp only
        rw [lookup_setA]
        by_cases he : kf.1 = joinDash ip.1.fields
        · rw [if_pos he]
          exact ⟨_, rfl⟩
        · rw [if_neg he]
          exact (hFinv kf hkf).2
    | none =>
      have hstep : getStep md P p acc ip =
          (setA acc.1 (joinDash ip.1.fields)
            (splice (List.replicate P (List.replicate md.payloadSize 0)) p ip.2),
           setA acc.2 (joinDash ip.1.fields) ip.1.fields) := by
        simp [getStep, hlk]
      rw [hstep]
      have hfit2 : p + ip.2.length ≤
          (List.replicate P (List.replicate md.payloadSize 0)).length := by
        rw [List.length_replicate]
        exact hfit1
      apply ih
      · exact fun q hq => hsub q (List.mem_cons_of_mem _ hq)
      · intro kb hkb
        rcases mem_setA _ _ _ kb hkb with heq | hmem
        · subst heq
          constructor
          · dsimp only
            rw [splice_length _ _ _ hfit2]
            exact List.length_replicate _ _
          · dsimp only
            intro j v hjv
            rw [splice_getElem? _ _ _ _ hfit2] at hjv
            by_cases hj1 : j < p
            · rw [if_pos hj1] at hjv
              left
              have hjP : j < P := by omega
              rw [List.getElem?_replicate, if_pos hjP] at hjv
              exact (Option.some_inj.mp hjv).symm
            · rw [if_neg hj1] at hjv
              by_cases hj2 : j < p + ip.2.length
              · rw [if_pos hj2] at hjv
                right
                have hc := hprov1 (j - p) v hjv
                have he2 : p + (j - p) = j := by omega
                rw [he2] at hc
                exact hc
              · rw [if_neg hj2] at hjv
                left
                rw [List.getElem?_replicate] at hjv
                by_cases hjP : j < P
                · rw [if_pos hjP] at hjv
                  exact (Option.some_inj.mp hjv).symm
                · rw [if_neg hjP] at hjv
                  cases hjv
        · exact hPinv kb hmem
      · intro kf hkf
        rcases mem_setA _ _ _ kf hkf with heq | hmem
        · subst heq
          refine ⟨rfl, ?_⟩
          dsimp only
          rw [lookup_setA, if_pos rfl]
          exact ⟨_, rfl⟩
        · refine ⟨(hFinv kf hmem).1, ?_⟩
          dsimp only
          rw [lookup_setA]
          by_cases he : kf.1 = joinDash ip.1.fields
          · rw [if_pos he]
            exact ⟨_, rfl⟩
          · rw [if_neg he]
            exact (hFinv kf hmem).2

/-- The epoch loop of `database.Get` preserves the accumulator invariants. -/
theorem dbGetLoop_inv (md : Meta) (world : Int → Option (List (Item × List (List Nat))))
    (now S E : Int) (P : Nat)
    (hres : 0 < md.resolution) (hdur : 0 < md.duration)
    (hdvd : md.resolution ∣ md.duration)
    (hSE : S < E) (hresS : md.resolution ∣ S) (hresE : md.resolution ∣ E)
    (hP : E - S = P * md.resolution)
    (hW : epochContract md world now S E) :
    ∀ (fuel : Nat) (ts : Int) (tmpP : List (GoStr × List (List Nat)))
      (tmpF : List (GoStr × List GoStr)),
      S - S % md.duration ≤ ts → md.duration ∣ ts →
      accInv md world now S E P tmpP → fldInv tmpP tmpF →
      accInv md world now S E P
        (dbGetLoop md world now S E (S - S % md.duration) (E - E % md.duration) P
          fuel ts tmpP tmpF).1 ∧
      fldInv
        (dbGetLoop md world now S E (S - S % md.duration) (E - E % md.duration) P
          fuel ts tmpP tmpF).1
        (dbGetLoop md world now S E (S - S % md.duration) (E - E % md.duration) P
          fuel ts tmpP tmpF).2 := by
  intro fuel
  induction fuel with
  | zero =>
    intro ts tmpP tmpF _ _ h3 h4
    simp only [dbGetLoop]
    exact ⟨h3, h4⟩
  | succ f ih =>
    intro ts tmpP tmpF h1 h2 h3 h4
    by_cases hle : ts ≤ E - E % md.duration
    · simp only [dbGetLoop, if_pos hle]
      rcases hEp : getEpochR md.duration now world ts with _ | r
      · dsimp only
        exact ih (ts + md.duration) tmpP tmpF (by omega) (h2.add dvd_rfl) h3 h4
      · dsimp only
        obtain ⟨hA1, hA2, hA3, hA4⟩ :=
          trim_fit md S E ts P hres hdur hdvd hSE hresS hresE hP h1 h2 hle
        have hfit : ∀ ip ∈ r, recStartN md S ts + ip.2.length ≤ P := by
          intro ip hip
          rw [hW ts r h1 hle h2 hEp ip hip]
          exact hA4
        have hprov : ∀ ip ∈ r, ∀ i v, ip.2[i]? = some v →
            contribAt md world now S E (joinDash ip.1.fields)
              (recStartN md S ts + i) v := by
          intro ip hip i v hiv
          refine ⟨ts, r, ip, h1, hle, h2, hEp, hip, rfl, by omega, ?_⟩
          have hsub : recStartN md S ts + i - recStartN md S ts = i := by omega
          rw [hsub]
          exact hiv
        have hupd := dbGetFold_inv md world now S E P (recStartN md S ts) r hfit hprov
          r (tmpP, tmpF) (fun q hq => hq) h3 h4
        exact ih (ts + md.duration) _ _ (by omega) (h2.add dvd_rfl) hupd.1 hupd.2
    · simp only [dbGetLoop, if_neg hle]
      exact ⟨h3, h4⟩

/-- Invariant characterization of the epoch loop of `database.One`: starting from a
state where every position of an already-processed epoch holds its final value and every
other position is still nil, running the loop from an epoch boundary `ts` settles every
position. -/
theorem dbOneLoop_char (md : Meta) (world : Int → Option (Nat → Option (List Nat)))
    (now S E : Int) (P : Nat)
    (hres : 0 < md.resolution) (hdur : 0 < md.duration)
    (hdvd : md.resolution ∣ md.duration)
    (hppe : md.duration / md.resolution < 2 ^ 32)
    (hS0 : 0 ≤ S) (hSE : S < E) (hresS : md.resolution ∣ S) (hresE : md.resolution ∣ E)
    (hP : E - S = P * md.resolution) :
    ∀ (fuel : Nat) (ts : Int) (out : List (Option (List Nat))),
      S - S % md.duration ≤ ts → md.duration ∣ ts →
      E - E % md.duration - ts < fuel * md.duration →
      out.length = P →
      (∀ j < P,
        (S + j * md.resolution - (S + j * md.resolution) % md.duration < ts →
          out[j]? = some (dbOneSlot md world now S j)) ∧
        (ts ≤ S + j * md.resolution - (S + j * md.resolution) % md.duration →
          out[j]? = some none)) →
      (dbOneLoop md world now S E (S - S % md.duration) (E - E % md.duration)
          fuel ts out).length = P ∧
      ∀ j < P,
        (dbOneLoop md world now S E (S - S % md.duration) (E - E % md.duration)
          fuel ts out)[j]? = some (dbOneSlot md world now S j) := by
  have hmodS := int_emod_nonneg_lt md.duration S hdur
  have hmodE := int_emod_nonneg_lt md.duration E hdur
  have hepoF0 : 0 ≤ S - S % md.duration := by
    have hd1 : S - S % md.duration = md.duration * (S / md.duration) := by
      have := Int.emod_def S md.duration
      omega
    have hd2 : 0 ≤ S / md.duration := Int.ediv_nonneg hS0 (by omega)
    rw [hd1]
    exact mul_nonneg (by omega) hd2
  have htj0 : ∀ j : Nat, 0 ≤ S + (j : Int) * md.resolution := by
    intro j
    have : 0 ≤ (j : Int) * md.resolution :=
      mul_nonneg (Int.natCast_nonneg j) (by omega)
    omega
  have hEj_le : ∀ j : Nat, j < P → S + (j : Int) * md.resolution ≤ E - md.resolution := by
    intro j hj
    have hcast : ((j : Int) + 1) ≤ (P : Int) := by exact_mod_cast hj
    have := mul_le_mul_of_nonneg_right hcast (show (0:Int) ≤ md.resolution by omega)
    have hx : ((j : Int) + 1) * md.resolution = (j : Int) * md.resolution + md.resolution := by
      ring
    omega
  have hsettle : ∀ (ts : Int) (out : List (Option (List Nat))),
      E - E % md.duration < ts →
      (∀ j < P,
        (S + j * md.resolution - (S + j * md.resolution) % md.duration < ts →
          out[j]? = some (dbOneSlot md world now S j)) ∧
        (ts ≤ S + j * md.resolution - (S + j * md.resolution) % md.duration →
          out[j]? = some none)) →
      ∀ j < P, out[j]? = some (dbOneSlot md world now S j) := by
    intro ts out hgt hinv j hj
    apply (hinv j hj).1
    have h1 : S + (j : Int) * md.resolution ≤ E := by
      have := hEj_le j hj
      omega
    have := int_floor_mono md.duration hdur h1
    omega
  intro fuel
  induction fuel with
  | zero =>
    intro ts out h1 h2 h3 h4 h5
    simp only [Nat.cast_zero, zero_mul] at h3
    simp only [dbOneLoop]
    exact ⟨h4, hsettle ts out (by omega) h5⟩
  | succ f ih =>
    intro ts out h1 h2 h3 h4 h5
    have hts0 : 0 ≤ ts := le_trans hepoF0 h1
    have hfuel2 : E - E % md.duration - (ts + md.duration) < f * md.duration := by
      have hx : ((f : Nat) + 1 : Nat) * md.duration = (f : Nat) * md.duration
          + md.duration := by
        push_cast
        ring
      omega
    by_cases hle : ts ≤ E - E % md.duration
    · simp only [dbOneLoop, if_pos hle]
      rcases hE : getEpochR md.duration now world ts with _ | ep
      · simp only [hE]
        apply ih (ts + md.duration) out (by omega) (by exact h2.add dvd_rfl)
          hfuel2 h4
        intro j hj
        refine ⟨?_, ?_⟩
        · intro hlt2
          by_cases hcase : S + j * md.resolution -
              (S + j * md.resolution) % md.duration < ts
          · exact (h5 j hj).1 hcase
          · push_neg at hcase
            have hdvdsub : md.duration ∣
                (S + j * md.resolution - (S + j * md.resolution) % md.duration - ts) :=
              dvd_sub (int_floor_dvd md.duration (S + j * md.resolution)) h2
            have heq : S + j * md.resolution - (S + j * md.resolution) % md.duration
                = ts :=
              int_eq_of_dvd_near md.duration _ ts hdur hdvdsub hcase hlt2
            have hslot : dbOneSlot md world now S j = none := by
              have htmod : (S + (j : Int) * md.resolution).tmod md.duration =
                  (S + (j : Int) * md.resolution) % md.duration :=
                Int.tmod_eq_emod (htj0 j) (by omega)
              simp only [dbOneSlot]
              rw [htmod, heq, hE]
            rw [hslot]
            exact (h5 j hj).2 (by omega)
        · intro hge
          exact (h5 j hj).2 (by omega)
      · -- the epoch contributes: splice its window
        set tS := if ts = S - S % md.duration then S else ts with htSdef
        set tE := if ts = E - E % md.duration then E else ts + md.duration with htEdef
        have htS_cases : tS = S ∨ tS = ts := by
          rw [htSdef]
          split <;> simp
        have htE_cases : tE = E ∨ tE = ts + md.duration := by
          rw [htEdef]
          split <;> simp
        have hF1 : ts ≤ tS := by
          rw [htSdef]
          split
          · omega
          · omega
        have hF2 : tS < ts + md.duration := by
          rw [htSdef]
          split
          · rename_i hc
            omega
          · omega
        have hF6 : S ≤ tS := by
          rw [htSdef]
          split
          · omega
          · rename_i hc
            have hlt2 : S - S % md.duration < ts := lt_of_le_of_ne h1 (Ne.symm hc)
            have := int_dvd_le_of_lt md.duration ts (S - S % md.duration) hdur
              (dvd_sub h2 (int_floor_dvd md.duration S)) hlt2
            omega
        have hF4 : tE ≤ ts + md.duration := by
          rw [htEdef]
          split
          · rename_i hc
            omega
          · omega
        have hF5 : tE ≤ E := by
          rw [htEdef]
          split
          · omega
          · rename_i hc
            have hlt2 : ts < E - E % md.duration := lt_of_le_of_ne hle hc
            have := int_dvd_le_of_lt md.duration (E - E % md.duration) ts hdur
              (dvd_sub (int_floor_dvd md.duration E) h2) hlt2
            omega
        have hF3 : tS ≤ tE := by
          rcases htS_cases with h | h <;> rcases htE_cases with h' | h' <;> omega
        have hrdvd_tS : md.resolution ∣ tS := by
          rcases htS_cases with h | h
          · rw [h]; exact hresS
          · rw [h]; exact dvd_trans hdvd h2
        have hrdvd_tE : md.resolution ∣ tE := by
          rcases htE_cases with h | h
          · rw [h]; exact hresE
          · rw [h]; exact dvd_add (dvd_trans hdvd h2) hdvd
        have hrdvd_ts : md.resolution ∣ ts := dvd_trans hdvd h2
        -- the three Nat quantities of the loop body
        have hRSnn : 0 ≤ (tS - S) / md.resolution :=
          Int.ediv_nonneg (by omega) (by omega)
        have hSPnn : 0 ≤ (tS - ts) / md.resolution :=
          Int.ediv_nonneg (by omega) (by omega)
        have hNPnn : 0 ≤ (tE - tS) / md.resolution :=
          Int.ediv_nonneg (by omega) (by omega)
        have hRS : (((tS - S) / md.resolution).toNat : Int) * md.resolution = tS - S := by
          rw [Int.toNat_of_nonneg hRSnn]
          exact Int.ediv_mul_cancel (dvd_sub hrdvd_tS hresS)
        have hSP : (((tS - ts) / md.resolution).toNat : Int) * md.resolution = tS - ts := by
          rw [Int.toNat_of_nonneg hSPnn]
          exact Int.ediv_mul_cancel (dvd_sub hrdvd_tS hrdvd_ts)
        have hNP : (((tE - tS) / md.resolution).toNat : Int) * md.resolution = tE - tS := by
          rw [Int.toNat_of_nonneg hNPnn]
          exact Int.ediv_mul_cancel (dvd_sub hrdvd_tE hrdvd_tS)
        have hPQ : (P : Int) * md.resolution = E - S := by omega
        -- bounds against duration over resolution
        have hdr : (md.duration / md.resolution) * md.resolution = md.duration :=
          Int.ediv_mul_cancel hdvd
        have hSPbound : (tS - ts) / md.resolution < 2 ^ 32 := by
          have hlt2 : (tS - ts) / md.resolution ≤ md.duration / md.resolution := by
            apply Int.ediv_le_ediv hres
            omega
          omega
        have hNPbound : (tE - tS) / md.resolution ≤ md.duration / md.resolution := by
          apply Int.ediv_le_ediv hres
          omega
        have hdrnn : 0 ≤ md.duration / md.resolution :=
          Int.ediv_nonneg (by omega) (by omega)
        have hsumbound : ((tS - ts) / md.resolution).toNat +
            ((tE - tS) / md.resolution).toNat ≤ (md.duration / md.resolution).toNat := by
          have hsum : (((tS - ts) / md.resolution).toNat : Int) * md.resolution +
              (((tE - tS) / md.resolution).toNat : Int) * md.resolution = tE - ts := by
            omega
          have hmul : ((((tS - ts) / md.resolution).toNat +
              ((tE - tS) / md.resolution).toNat : Nat) : Int) * md.resolution ≤
              (md.duration / md.resolution) * md.resolution := by
            push_cast
            rw [add_mul]
            omega
          have hfin := le_of_mul_le_mul_right hmul hres
          omega
        have hjres0 : ∀ j : Nat, 0 ≤ (j : Int) * md.resolution := fun j =>
          mul_nonneg (Int.natCast_nonneg j) (by omega)
        have hfloor_tS : tS - tS % md.duration = ts :=
          int_floor_eq md.duration ts tS hdur h2 hF1 hF2
        -- rewrite the loop body into canonical splice form
        dsimp only
        have htmod2 : tS.tmod md.duration = tS - ts := by
          rw [Int.tmod_eq_emod (by omega) (by omega)]
          omega
        have htdivSP : (tS - ts).tdiv md.resolution = (tS - ts) / md.resolution :=
          Int.tdiv_eq_ediv (by omega) (by omega)
        have htdivNP : (tE - tS).tdiv md.resolution = (tE - tS) / md.resolution :=
          Int.tdiv_eq_ediv (by omega) (by omega)
        have htdivRS : (tS - S).tdiv md.resolution = (tS - S) / md.resolution :=
          Int.tdiv_eq_ediv (by omega) (by omega)
        rw [htmod2, htdivSP, htdivNP, htdivRS]
        have hdr32 : (md.duration / md.resolution).toNat < 2 ^ 32 := by omega
        have hSPt32 : ((tS - ts) / md.resolution).toNat % 2 ^ 32 =
            ((tS - ts) / md.resolution).toNat :=
          Nat.mod_eq_of_lt (by omega)
        have hNPt32 : ((tE - tS) / md.resolution).toNat % 2 ^ 32 =
            ((tE - tS) / md.resolution).toNat :=
          Nat.mod_eq_of_lt (by omega)
        rw [hSPt32, hNPt32]
        have hEnd32 : (((tS - ts) / md.resolution).toNat +
            ((tE - tS) / md.resolution).toNat) % 2 ^ 32 =
            ((tS - ts) / md.resolution).toNat + ((tE - tS) / md.resolution).toNat :=
          Nat.mod_eq_of_lt (by omega)
        rw [hEnd32]
        have hlenvals : ((epoOne md.payloadSize ep (((tS - ts) / md.resolution).toNat)
            (((tS - ts) / md.resolution).toNat +
              ((tE - tS) / md.resolution).toNat)).map some).length =
            ((tE - tS) / md.resolution).toNat := by
          simp [epoOne]
        have hRSNP : ((tS - S) / md.resolution).toNat +
            ((tE - tS) / md.resolution).toNat ≤ P := by
          have hsum2 : ((((tS - S) / md.resolution).toNat +
              ((tE - tS) / md.resolution).toNat : Nat) : Int) * md.resolution =
              tE - S := by
            push_cast
            rw [add_mul]
            omega
          have hmul2 : ((((tS - S) / md.resolution).toNat +
              ((tE - tS) / md.resolution).toNat : Nat) : Int) * md.resolution ≤
              (P : Int) * md.resolution := by
            omega
          have := le_of_mul_le_mul_right hmul2 hres
          exact_mod_cast this
        have hfit : ((tS - S) / md.resolution).toNat +
            ((epoOne md.payloadSize ep (((tS - ts) / md.resolution).toNat)
              (((tS - ts) / md.resolution).toNat +
                ((tE - tS) / md.resolution).toNat)).map some).length ≤ out.length := by
          rw [hlenvals, h4]
          exact hRSNP
        apply ih (ts + md.duration)
        · omega
        · exact h2.add dvd_rfl
        · exact hfuel2
        · rw [splice_length _ _ _ hfit]
          exact h4
        · intro j hj
          have hsp := splice_getElem? out (((tS - S) / md.resolution).toNat)
            ((epoOne md.payloadSize ep (((tS - ts) / md.resolution).toNat)
              (((tS - ts) / md.resolution).toNat +
                ((tE - tS) / md.resolution).toNat)).map some) j hfit
          rw [hlenvals] at hsp
          constructor
          · intro hlt2
            by_cases hjlt : S + j * md.resolution -
                (S + j * md.resolution) % md.duration < ts
            · -- position settled by an earlier epoch: below the spliced window
              have htjlt : S + (j : Int) * md.resolution < tS := by
                by_contra hcon
                push_neg at hcon
                have hmono := int_floor_mono md.duration hdur hcon
                omega
              have hjRS : j < ((tS - S) / md.resolution).toNat := by
                have hx : (j : Int) * md.resolution <
                    ((((tS - S) / md.resolution).toNat : Nat) : Int) * md.resolution := by
                  omega
                have := lt_of_mul_lt_mul_right hx (by omega)
                exact_mod_cast this
              rw [hsp, if_pos hjRS]
              exact (h5 j hj).1 hjlt
            · -- position inside this epoch's window
              push_neg at hjlt
              have hdvdsub : md.duration ∣
                  (S + j * md.resolution - (S + j * md.resolution) % md.duration - ts) :=
                dvd_sub (int_floor_dvd md.duration (S + j * md.resolution)) h2
              have heq : S + j * md.resolution -
                  (S + j * md.resolution) % md.duration = ts :=
                int_eq_of_dvd_near md.duration _ ts hdur hdvdsub hjlt hlt2
              have hmodj := int_emod_nonneg_lt md.duration
                (S + (j : Int) * md.resolution) hdur
              have htj_ge : tS ≤ S + (j : Int) * md.resolution := by
                have := hjres0 j
                rcases htS_cases with h | h <;> omega
              have htj_lt_tE : S + (j : Int) * md.resolution < tE := by
                rcases htE_cases with h | h
                · have := hEj_le j hj
                  omega
                · omega
              have hge : ((tS - S) / md.resolution).toNat ≤ j := by
                have hx : ((((tS - S) / md.resolution).toNat : Nat) : Int) *
                    md.resolution ≤ (j : Int) * md.resolution := by
                  omega
                have := le_of_mul_le_mul_right hx hres
                exact_mod_cast this
              have hltwin : j < ((tS - S) / md.resolution).toNat +
                  ((tE - tS) / md.resolution).toNat := by
                have hsum2 : ((((tS - S) / md.resolution).toNat +
                    ((tE - tS) / md.resolution).toNat : Nat) : Int) * md.resolution =
                    tE - S := by
                  push_cast
                  rw [add_mul]
                  omega
                have hx : (j : Int) * md.resolution <
                    ((((tS - S) / md.resolution).toNat +
                      ((tE - tS) / md.resolution).toNat : Nat) : Int) *
                      md.resolution := by
                  omega
                have := lt_of_mul_lt_mul_right hx (by omega)
                exact_mod_cast this
              rw [hsp, if_neg (by omega), if_pos hltwin]
              rw [epoOne_map_getElem? md.payloadSize ep
                (((tS - ts) / md.resolution).toNat)
                (((tE - tS) / md.resolution).toNat)
                (j - ((tS - S) / md.resolution).toNat) (by omega)]
              have hposcast : ((((tS - ts) / md.resolution).toNat +
                  (j - ((tS - S) / md.resolution).toNat) : Nat) : Int) *
                  md.resolution = S + (j : Int) * md.resolution - ts := by
                have hc1 : ((j - ((tS - S) / md.resolution).toNat : Nat) : Int) =
                    (j : Int) - (((tS - S) / md.resolution).toNat : Int) := by
                  omega
                push_cast [hc1]
                rw [add_mul, sub_mul]
                omega
              have hslot : dbOneSlot md world now S j =
                  some ((ep (((tS - ts) / md.resolution).toNat +
                    (j - ((tS - S) / md.resolution).toNat))).getD
                    (List.replicate md.payloadSize 0)) := by
                have htmodj : (S + (j : Int) * md.resolution).tmod md.duration =
                    (S + (j : Int) * md.resolution) % md.duration :=
                  Int.tmod_eq_emod (htj0 j) (by omega)
                simp only [dbOneSlot]
                rw [htmodj, heq, hE]
                have htdivj : (S + (j : Int) * md.resolution - ts).tdiv md.resolution =
                    (S + (j : Int) * md.resolution - ts) / md.resolution :=
                  Int.tdiv_eq_ediv (by omega) (by omega)
                rw [htdivj]
                have hdiveq : (S + (j : Int) * md.resolution - ts) / md.resolution =
                    ((((tS - ts) / md.resolution).toNat +
                      (j - ((tS - S) / md.resolution).toNat) : Nat) : Int) := by
                  rw [← hposcast]
                  exact Int.mul_ediv_cancel _ (by omega)
                rw [hdiveq]
                simp
                have harg : ((tS - ts) / md.resolution ⊔ 0 +
                    ((j - ((tS - S) / md.resolution).toNat : Nat) : Int)).toNat =
                    ((tS - ts) / md.resolution).toNat +
                      (j - ((tS - S) / md.resolution).toNat) := by
                  rw [sup_eq_left.mpr hSPnn]
                  omega
                rw [harg]
              rw [hslot]
          · intro hge2
            have htj_ge_tE : tE ≤ S + (j : Int) * md.resolution := by
              have hmodj := int_emod_nonneg_lt md.duration
                (S + (j : Int) * md.resolution) hdur
              omega
            have hjge : ((tS - S) / md.resolution).toNat +
                ((tE - tS) / md.resolution).toNat ≤ j := by
              have hsum2 : ((((tS - S) / md.resolution).toNat +
                  ((tE - tS) / md.resolution).toNat : Nat) : Int) * md.resolution =
                  tE - S := by
                push_cast
                rw [add_mul]
                omega
              have hx : ((((tS - S) / md.resolution).toNat +
                  ((tE - tS) / md.resolution).toNat : Nat) : Int) * md.resolution ≤
                  (j : Int) * md.resolution := by
                omega
              have := le_of_mul_le_mul_right hx hres
              exact_mod_cast this
            rw [hsp, if_neg (by omega), if_neg (by omega)]
            exact (h5 j hj).2 (by omega)
    · simp only [dbOneLoop, if_neg hle]
      exact ⟨h4, hsettle ts out (by omega) h5⟩

/-- Characterization of `database.One`. For a successful read with positive resolution
dividing the positive epoch duration, nonnegative floored start below the floored end,
and `duration/resolution` below `2^32`, `One` returns exactly
`pcount = (endT - startT)/resolution` slots, and slot `j` is: `nil` when the epoch
containing point `j` fails to open (or is skipped), otherwise the stored payload for
that point, defaulting to a zero-filled `payloadSize` payload when the epoch holds no
data at that point. -/
theorem dbOne_characterization (md : Meta)
    (world : Int → Option (Nat → Option (List Nat)))
    (now start0 end0 : Int)
    (hres : 0 < md.resolution) (hdur : 0 < md.duration)
    (hdvd : md.resolution ∣ md.duration)
    (hppe : md.duration / md.resolution < 2 ^ 32)
    (h00 : 0 ≤ start0)
    (hSE : start0 - start0.tmod md.resolution < end0 - end0.tmod md.resolution) :
    ∃ out, dbOne md world now start0 end0 = .ok out ∧
      out.length = ((end0 - end0.tmod md.resolution -
        (start0 - start0.tmod md.resolution)).tdiv md.resolution).toNat ∧
      ∀ j < ((end0 - end0.tmod md.resolution -
        (start0 - start0.tmod md.resolution)).tdiv md.resolution).toNat,
        out[j]? = some (dbOneSlot md world now
          (start0 - start0.tmod md.resolution) j) := by
  set S := start0 - start0.tmod md.resolution with hSdef
  set E := end0 - end0.tmod md.resolution with hEdef
  have hS0 : 0 ≤ S := by
    have h := Int.tmod_eq_emod h00 (le_of_lt hres)
    have hd2 : 0 ≤ start0 / md.resolution := Int.ediv_nonneg h00 (by omega)
    have hd3 := Int.emod_def start0 md.resolution
    have hd4 : 0 ≤ md.resolution * (start0 / md.resolution) := mul_nonneg (by omega) hd2
    rw [hSdef, h]
    omega
  have hE0 : 0 < E := lt_of_le_of_lt hS0 hSE
  have hresS : md.resolution ∣ S := by
    have h := Int.tdiv_add_tmod start0 md.resolution
    refine ⟨start0.tdiv md.resolution, ?_⟩
    rw [hSdef]
    omega
  have hresE : md.resolution ∣ E := by
    have h := Int.tdiv_add_tmod end0 md.resolution
    refine ⟨end0.tdiv md.resolution, ?_⟩
    rw [hEdef]
    omega
  have hP : E - S = (((E - S).tdiv md.resolution).toNat : Int) * md.resolution := by
    obtain ⟨c, hc⟩ := dvd_sub hresE hresS
    have hc0 : 0 < c := by
      by_contra hcon
      push_neg at hcon
      have := mul_nonpos_iff.mpr (Or.inl ⟨le_of_lt hres, hcon⟩)
      omega
    have htd : (E - S).tdiv md.resolution = c := by
      rw [Int.tdiv_eq_ediv (by omega) (by omega), hc]
      exact Int.mul_ediv_cancel_left _ (by omega)
    rw [htd, Int.toNat_of_nonneg (by omega), hc]
    ring
  have hdurF : md.duration ∣ (S - S % md.duration) := by
    have h := Int.emod_def S md.duration
    exact ⟨S / md.duration, by omega⟩
  have hfuel : E - E % md.duration - (S - S % md.duration) <
      (((E - E % md.duration - (S - S % md.duration)).toNat + 1 : Nat) : Int) *
        md.duration := by
    have hmono := int_floor_mono md.duration hdur (le_of_lt hSE)
    have hD0 : 0 ≤ E - E % md.duration - (S - S % md.duration) := by omega
    have h1 : (((E - E % md.duration - (S - S % md.duration)).toNat + 1 : Nat) : Int) =
        E - E % md.duration - (S - S % md.duration) + 1 := by
      omega
    rw [h1]
    have h2 : E - E % md.duration - (S - S % md.duration) + 1 ≤
        (E - E % md.duration - (S - S % md.duration) + 1) * md.duration :=
      le_mul_of_one_le_right (by omega) (by omega)
    omega
  have hinv : ∀ j < ((E - S).tdiv md.resolution).toNat,
      (S + j * md.resolution - (S + j * md.resolution) % md.duration <
          S - S % md.duration →
        (List.replicate (((E - S).tdiv md.resolution).toNat)
          (none : Option (List Nat)))[j]? = some (dbOneSlot md world now S j)) ∧
      (S - S % md.duration ≤
          S + j * md.resolution - (S + j * md.resolution) % md.duration →
        (List.replicate (((E - S).tdiv md.resolution).toNat)
          (none : Option (List Nat)))[j]? = some none) := by
    intro j hj
    constructor
    · intro habs
      exfalso
      have hjn : 0 ≤ (j : Int) * md.resolution :=
        mul_nonneg (Int.natCast_nonneg j) (by omega)
      have := int_floor_mono md.duration hdur
        (show S ≤ S + (j : Int) * md.resolution by omega)
      omega
    · intro _
      simp [List.getElem?_replicate, hj]
  have hchar := dbOneLoop_char md world now S E (((E - S).tdiv md.resolution).toNat)
    hres hdur hdvd hppe hS0 hSE hresS hresE hP
    ((E - E % md.duration - (S - S % md.duration)).toNat + 1)
    (S - S % md.duration)
    (List.replicate (((E - S).tdiv md.resolution).toNat) none)
    le_rfl hdurF hfuel (by simp) hinv
  have htmS : S.tmod md.duration = S % md.duration :=
    Int.tmod_eq_emod hS0 (by omega)
  have htmE : E.tmod md.duration = E % md.duration :=
    Int.tmod_eq_emod (le_of_lt hE0) (by omega)
  refine ⟨dbOneLoop md world now S E (S - S % md.duration) (E - E % md.duration)
    ((E - E % md.duration - (S - S % md.duration)).toNat + 1) (S - S % md.duration)
    (List.replicate (((E - S).tdiv md.resolution).toNat) none),
    ?_, hchar.1, hchar.2⟩
  simp only [dbOne]
  rw [← hSdef, ← hEdef, if_neg (not_le.mpr hSE), htmS, htmE]

/-- Witness for the `database.One` characterization at a concrete input: metadata with
resolution 1, duration 10, payload size 2; `One(0, 20)` at `now = 0` over the world where
only epoch 0 opens. -/
theorem dbOne_characterization_witness :
    ∃ out, dbOne mdC1 worldC1 0 0 20 = .ok out ∧
      out.length = ((20 - (20 : Int).tmod mdC1.resolution -
        (0 - (0 : Int).tmod mdC1.resolution)).tdiv mdC1.resolution).toNat ∧
      ∀ j < ((20 - (20 : Int).tmod mdC1.resolution -
        (0 - (0 : Int).tmod mdC1.resolution)).tdiv mdC1.resolution).toNat,
        out[j]? = some (dbOneSlot mdC1 worldC1 0
          (0 - (0 : Int).tmod mdC1.resolution) j) :=
  dbOne_characterization mdC1 worldC1 0 0 20 (by decide) (by decide) (by decide)
    (by decide) (by decide) (by decide)

/-- C1 (amended): for every successful range read (positive resolution dividing the
positive epoch duration, `duration/resolution < 2^32`, nonnegative floored start below
the floored end), with `pcount = (endT - startT)/resolution`:
`database.One` returns exactly `pcount` slots, where slot `j` holds the stored payload
of point `j` when its epoch opens (defaulting to an all-zero `payload_size` payload
when the epoch holds no data there) and is a nil entry — not a zero payload — when the
epoch fails to open or is skipped (`make([][]byte, pcount)` leaves untouched slots
nil); and `database.Get` (whose epoch reads return one payload per requested window
point) returns accumulators of exactly `pcount` payloads in which every position that
no epoch contributed to is the all-zero payload of `payload_size` bytes the buffer was
initialised with. -/
theorem range_read_zero_fill (md : Meta)
    (worldO : Int → Option (Nat → Option (List Nat)))
    (worldG : Int → Option (List (Item × List (List Nat))))
    (now start0 end0 : Int)
    (hres : 0 < md.resolution) (hdur : 0 < md.duration)
    (hdvd : md.resolution ∣ md.duration)
    (hppe : md.duration / md.resolution < 2 ^ 32)
    (h00 : 0 ≤ start0)
    (hSE : start0 - start0.tmod md.resolution < end0 - end0.tmod md.resolution)
    (hW : epochContract md worldG now (start0 - start0.tmod md.resolution)
      (end0 - end0.tmod md.resolution)) :
    (∃ out, dbOne md worldO now start0 end0 = .ok out ∧
      out.length = ((end0 - end0.tmod md.resolution -
        (start0 - start0.tmod md.resolution)).tdiv md.resolution).toNat ∧
      ∀ j < ((end0 - end0.tmod md.resolution -
        (start0 - start0.tmod md.resolution)).tdiv md.resolution).toNat,
        out[j]? = some (dbOneSlot md worldO now
          (start0 - start0.tmod md.resolution) j)) ∧
    (∃ outG, dbGet md worldG now start0 end0 = .ok outG ∧
      ∀ e ∈ outG, e.2.length = ((end0 - end0.tmod md.resolution -
        (start0 - start0.tmod md.resolution)).tdiv md.resolution).toNat ∧
        ∀ j v, e.2[j]? = some v →
          v = List.replicate md.payloadSize 0 ∨
          contribAt md worldG now (start0 - start0.tmod md.resolution)
            (end0 - end0.tmod md.resolution) (joinDash e.1.fields) j v) := by
  refine ⟨dbOne_characterization md worldO now start0 end0 hres hdur hdvd hppe
    h00 hSE, ?_⟩
  set S := start0 - start0.tmod md.resolution with hSdef
  set E := end0 - end0.tmod md.resolution with hEdef
  have hS0 : 0 ≤ S := by
    have h := Int.tmod_eq_emod h00 (le_of_lt hres)
    have hd2 : 0 ≤ start0 / md.resolution := Int.ediv_nonneg h00 (by omega)
    have hd3 := Int.emod_def start0 md.resolution
    have hd4 : 0 ≤ md.resolution * (start0 / md.resolution) := mul_nonneg (by omega) hd2
    rw [hSdef, h]
    omega
  have hE0 : 0 < E := lt_of_le_of_lt hS0 hSE
  have hresS : md.resolution ∣ S := by
    have h := Int.tdiv_add_tmod start0 md.resolution
    refine ⟨start0.tdiv md.resolution, ?_⟩
    rw [hSdef]
    omega
  have hresE : md.resolution ∣ E := by
    have h := Int.tdiv_add_tmod end0 md.resolution
    refine ⟨end0.tdiv md.resolution, ?_⟩
    rw [hEdef]
    omega
  have hP : E - S = (((E - S).tdiv md.resolution).toNat : Int) * md.resolution := by
    obtain ⟨c, hc⟩ := dvd_sub hresE hresS
    have hc0 : 0 < c := by
      by_contra hcon
      push_neg at hcon
      have := mul_nonpos_iff.mpr (Or.inl ⟨le_of_lt hres, hcon⟩)
      omega
    have htd : (E - S).tdiv md.resolution = c := by
      rw [Int.tdiv_eq_ediv (by omega) (by omega), hc]
      exact Int.mul_ediv_cancel_left _ (by omega)
    rw [htd, Int.toNat_of_nonneg (by omega), hc]
    ring
  have hdurF : md.duration ∣ (S - S % md.duration) := by
    have h := Int.emod_def S md.duration
    exact ⟨S / md.duration, by omega⟩
  have hinv0 : accInv md worldG now S E (((E - S).tdiv md.resolution).toNat) [] := by
    intro kb hkb
    simp at hkb
  have hfld0 : fldInv ([] : List (GoStr × List (List Nat))) [] := by
    intro kf hkf
    simp at hkf
  have hloop := dbGetLoop_inv md worldG now S E (((E - S).tdiv md.resolution).toNat)
    hres hdur hdvd hSE hresS hresE hP hW
    ((E - E % md.duration - (S - S % md.duration)).toNat + 1) (S - S % md.duration)
    [] [] le_rfl hdurF hinv0 hfld0
  have htmS : S.tmod md.duration = S % md.duration :=
    Int.tmod_eq_emod hS0 (by omega)
  have htmE : E.tmod md.duration = E % md.duration :=
    Int.tmod_eq_emod (le_of_lt hE0) (by omega)
  simp only [dbGet]
  rw [← hSdef, ← hEdef, if_neg (not_le.mpr hSE), htmS, htmE]
  refine ⟨_, rfl, ?_⟩
  intro e he
  simp only [List.mem_map] at he
  obtain ⟨kf, hkf, rfl⟩ := he
  obtain ⟨hkey, buf, hbuf⟩ := hloop.2 kf hkf
  have hmem := lookupA_mem _ _ _ hbuf
  obtain ⟨hblen, hbinv⟩ := hloop.1 _ hmem
  rw [hbuf]
  constructor
  · simp only [Option.getD_some]
    exact hblen
  · intro j v hjv
    simp only [Option.getD_some] at hjv
    rcases hbinv j v hjv with hL | hR
    · exact Or.inl hL
    · right
      have hfld : (Item.mk kf.2 0).fields = kf.2 := rfl
      rw [hfld, ← hkey]
      exact hR

/-- World for the `database.Get` zero-fill witness: epoch 0 opens with one item whose
window holds ten payloads; every other epoch fails to open or is in the future. -/
def worldGW : Int → Option (List (Item × List (List Nat))) := fun ts =>
  if ts = 0 then some [(⟨[[97]], 3⟩, List.replicate 10 [1, 2])] else none

/-- Witness for `range_read_zero_fill` at a concrete input: metadata with resolution 1,
duration 10 and payload size 2; the reads `One(0, 20)` and `Get(0, 20)` at `now = 0`. -/
theorem range_read_zero_fill_witness :
    ((0 : Int) < mdC1.resolution ∧ (0 : Int) < mdC1.duration ∧
      mdC1.resolution ∣ mdC1.duration ∧ mdC1.duration / mdC1.resolution < 2 ^ 32 ∧
      (0 : Int) ≤ 0 ∧
      (0 : Int) - (0 : Int).tmod mdC1.resolution <
        20 - (20 : Int).tmod mdC1.resolution ∧
      epochContract mdC1 worldGW 0 (0 - (0 : Int).tmod mdC1.resolution)
        (20 - (20 : Int).tmod mdC1.resolution)) ∧
    ((∃ out, dbOne mdC1 worldC1 0 0 20 = .ok out ∧
      out.length = ((20 - (20 : Int).tmod mdC1.resolution -
        (0 - (0 : Int).tmod mdC1.resolution)).tdiv mdC1.resolution).toNat ∧
      ∀ j < ((20 - (20 : Int).tmod mdC1.resolution -
        (0 - (0 : Int).tmod mdC1.resolution)).tdiv mdC1.resolution).toNat,
        out[j]? = some (dbOneSlot mdC1 worldC1 0
          (0 - (0 : Int).tmod mdC1.resolution) j)) ∧
    (∃ outG, dbGet mdC1 worldGW 0 0 20 = .ok outG ∧
      ∀ e ∈ outG, e.2.length = ((20 - (20 : Int).tmod mdC1.resolution -
        (0 - (0 : Int).tmod mdC1.resolution)).tdiv mdC1.resolution).toNat ∧
        ∀ j v, e.2[j]? = some v →
          v = List.replicate mdC1.payloadSize 0 ∨
          contribAt mdC1 worldGW 0 (0 - (0 : Int).tmod mdC1.resolution)
            (20 - (20 : Int).tmod mdC1.resolution) (joinDash e.1.fields) j v)) := by
  have hS : (0 : Int) - (0 : Int).tmod mdC1.resolution = 0 := by decide
  have hE : (20 : Int) - (20 : Int).tmod mdC1.resolution = 20 := by decide
  have hW0 : epochContract mdC1 worldGW 0 0 20 := by
    intro ts r h1 h2 h3 hr ip hip
    simp only [show mdC1.duration = (10 : Int) from rfl] at h1 h2 h3 hr
    have h1n : (0 : Int) ≤ ts := by
      have hz : (0 : Int) - 0 % 10 = 0 := by decide
      omega
    have htm : ts.tmod 10 = 0 := by
      rw [Int.tmod_eq_emod h1n (by norm_num)]
      exact Int.emod_eq_zero_of_dvd h3
    simp only [getEpochR, htm] at hr
    norm_num at hr
    obtain ⟨hlt, hr2⟩ := hr
    simp only [worldGW] at hr2
    by_cases h0 : ts = 0
    · subst h0
      rw [if_pos rfl] at hr2
      have hreq := Option.some_inj.mp hr2
      subst hreq
      simp only [List.mem_singleton] at hip
      subst hip
      decide
    · rw [if_neg h0] at hr2
      cases hr2
  have hW : epochContract mdC1 worldGW 0 (0 - (0 : Int).tmod mdC1.resolution)
      (20 - (20 : Int).tmod mdC1.resolution) := by
    rw [hS, hE]
    exact hW0
  exact ⟨⟨by decide, by decide, by decide, by decide, by decide, by decide, hW⟩,
    range_read_zero_fill mdC1 worldC1 worldGW 0 0 20 (by decide) (by decide)
      (by decide) (by decide) (by decide) (by decide) hW⟩

end KadiraDB
